import Mathlib

/-!
HyPrism client patcher: a shallow embedding of `internal/patcher/patcher.go`.

Go strings and byte slices are both sequences of bytes, so both are lists of
`Fin 256` here.  Loops that mutate a slice in place become functions that pass
the slice along explicitly.  A function returns `none` where the Go code would
not return normally (a run-time panic) or where the loop model is given too
little fuel; every theorem about a result proves that the result is `some`.
-/

namespace HyPrism

/-- One byte. -/
abbrev Byte := Fin 256

/-- A Go `string`: an immutable sequence of bytes. -/
abbrev GoString := List Byte

/-- The bytes of an ASCII string literal. -/
def ascii (s : String) : GoString := s.toList.map (fun c => Fin.ofNat c.toNat)

/-- Constant `OriginalDomain` (patcher.go:20). -/
def OriginalDomain : GoString := ascii "hytale.com"

/-- Constant `DefaultAuthDomain` (patcher.go:22). -/
def DefaultAuthDomain : GoString := ascii "sanasol.ws"

/-- Type `PatchFlag` (patcher.go:26). -/
structure PatchFlag where
  PatchedAt : GoString
  OriginalDomain : GoString
  TargetDomain : GoString
  PatcherVersion : GoString
  deriving DecidableEq, Repr

/-- Type `PatchResult` (patcher.go:34). -/
structure PatchResult where
  Success : Bool
  AlreadyPatched : Bool
  PatchCount : Nat
  Error : GoString
  deriving DecidableEq, Repr

/-- Type `ClientPatcher` (patcher.go:42). -/
structure ClientPatcher where
  targetDomain : GoString
  patchedFlag : GoString
  deriving DecidableEq, Repr

/-- Function `NewClientPatcher` (patcher.go:48). The warning printed on a length
mismatch has no effect on the result and is left out. -/
def NewClientPatcher (targetDomain : GoString) : ClientPatcher :=
  let targetDomain := if targetDomain = [] then DefaultAuthDomain else targetDomain
  let targetDomain :=
    if targetDomain.length ≠ OriginalDomain.length then DefaultAuthDomain else targetDomain
  { targetDomain := targetDomain, patchedFlag := ascii ".patched_custom" }

/-- Method `binary.LittleEndian.PutUint16`: the low byte, then the high byte. -/
def putUint16LE (v : Nat) : List Byte := [Fin.ofNat v, Fin.ofNat (v / 256)]

/-- Function `stringToUTF16LE` (patcher.go:65): every byte of the string is
widened to a 16-bit unit and stored little-endian. -/
def stringToUTF16LE (s : GoString) : List Byte :=
  s.flatMap (fun c => putUint16LE (c.val % 65536))

/-- Function `stringToUTF8` (patcher.go:74). -/
def stringToUTF8 (s : GoString) : List Byte := s

/-- Function `bytes.Index`: the least index at which `sep` starts in `s`;
`none` stands for the result `-1`. -/
def bytesIndex : List Byte → List Byte → Option Nat
  | [], sep => if sep = [] then some 0 else none
  | x :: xs, sep =>
    if sep.isPrefixOf (x :: xs) then some 0 else (bytesIndex xs sep).map (· + 1)

/-- Function `bytes.Contains`. -/
def bytesContains (s sep : List Byte) : Bool := (bytesIndex s sep).isSome

/-- The builtin `copy(dst[off:], src)` for `off ≤ len(dst)`: as many bytes of
`src` as fit are written over `dst` from offset `off`. -/
def goCopy (dst : List Byte) (off : Nat) (src : List Byte) : List Byte :=
  dst.take off ++ src.take (dst.length - off) ++ dst.drop (off + src.length)

/-- The loop of `findAndReplaceDomainSmart` (patcher.go:93-117), with the
slice `data`, `pos` and `count` as explicit state. -/
def smartLoop (oldNoLast newNoLast : List Byte) (oldLastCharByte newLastCharByte : Byte) :
    Nat → List Byte → Nat → Nat → Option (List Byte × Nat)
  | 0, data, pos, count => if pos < data.length then none else some (data, count)
  | fuel + 1, data, pos, count =>
    if pos < data.length then
      match bytesIndex (data.drop pos) oldNoLast with
      | none => some (data, count)
      | some i =>
        let idx := i + pos
        let lastCharPos := idx + oldNoLast.length
        if lastCharPos + 1 > data.length then
          smartLoop oldNoLast newNoLast oldLastCharByte newLastCharByte fuel data (idx + 1) count
        else
          match data[lastCharPos]? with
          | none => none
          | some lastCharFirstByte =>
            if lastCharFirstByte = oldLastCharByte then
              smartLoop oldNoLast newNoLast oldLastCharByte newLastCharByte fuel
                ((goCopy data idx newNoLast).set lastCharPos newLastCharByte) (idx + 1) (count + 1)
            else
              smartLoop oldNoLast newNoLast oldLastCharByte newLastCharByte fuel data (idx + 1) count
    else some (data, count)

/-- Method `findAndReplaceDomainSmart` (patcher.go:81). Slicing off the last
character of an empty target domain panics in Go: `none`. The loop moves `pos`
forward on every pass, so `len(data)` passes are enough fuel. -/
def findAndReplaceDomainSmart (p : ClientPatcher) (data : List Byte) :
    Option (List Byte × Nat) :=
  match OriginalDomain.getLast?, p.targetDomain.getLast? with
  | some oldLastCharByte, some newLastCharByte =>
    smartLoop (stringToUTF16LE OriginalDomain.dropLast) (stringToUTF16LE p.targetDomain.dropLast)
      oldLastCharByte newLastCharByte data.length data 0 0
  | _, _ => none

/-- The loop of `findAndReplaceDomainUTF8` (patcher.go:132-141). -/
def utf8Loop (oldUTF8 newUTF8 : List Byte) :
    Nat → List Byte → Nat → Nat → Option (List Byte × Nat)
  | 0, data, pos, count => if pos < data.length then none else some (data, count)
  | fuel + 1, data, pos, count =>
    if pos < data.length then
      match bytesIndex (data.drop pos) oldUTF8 with
      | none => some (data, count)
      | some i =>
        let idx := i + pos
        utf8Loop oldUTF8 newUTF8 fuel (goCopy data idx newUTF8) (idx + oldUTF8.length) (count + 1)
    else some (data, count)

/-- Method `findAndReplaceDomainUTF8` (patcher.go:124). -/
def findAndReplaceDomainUTF8 (p : ClientPatcher) (data : List Byte) :
    Option (List Byte × Nat) :=
  utf8Loop (stringToUTF8 OriginalDomain) (stringToUTF8 p.targetDomain) data.length data 0 0


/-- Function `strings.HasSuffix`. -/
def hasSuffix (s suffix : GoString) : Bool := suffix.isSuffixOf s

/-- An entry of the archive being read (`*zip.File`): its name and compression
method, and what the I/O on it yields: whether `file.Open` fails, what
`io.ReadAll` returns (`none` for an error), and whether `zip.FileInfoHeader`,
`writer.CreateHeader` and `w.Write` fail when the entry is written back
(`w.Write` always fails on a non-empty payload under a name ending in `/`). -/
structure ZipFile where
  Name : GoString
  Method : Nat
  openFails : Bool
  payload : Option (List Byte)
  headerFails : Bool
  createFails : Bool
  writeFails : Bool
  deriving DecidableEq, Repr

/-- An entry written to the new archive: the header's name and method, and the
bytes written. -/
structure ZipEntry where
  Name : GoString
  Method : Nat
  payload : List Byte
  deriving DecidableEq, Repr

/-- Constant `zip.Store`: the method of an entry stored without compression. -/
def Store : Nat := 0

/-- The method under which `writer.CreateHeader` writes an entry whose header
asks for `method`: a name ending in `/` is a directory, which is always
written with `zip.Store`. -/
def createHeaderMethod (name : GoString) (method : Nat) : Nat :=
  if hasSuffix name (ascii "/") then Store else method

/-- A failed `PatchResult`. Only the fixed part of the message is kept; Go
appends the path or the text of the error to it. -/
def failure (msg : String) : PatchResult :=
  { Success := false, AlreadyPatched := false, PatchCount := 0, Error := ascii msg }

/-- The local `shouldPatch` of `PatchServer` (patcher.go:433). -/
def shouldPatch (name : GoString) : Bool :=
  hasSuffix name (ascii ".class") ||
    hasSuffix name (ascii ".properties") ||
    hasSuffix name (ascii ".json") ||
    hasSuffix name (ascii ".xml") ||
    hasSuffix name (ascii ".yml")

/-- The body of the entry loop of `PatchServer` (patcher.go:431-475) for one
entry: the entry written to the new archive and the new `totalCount`, or the
`PatchResult` returned early. `findAndReplaceDomainUTF8` patches `data` in
place, so `data` holds the patched bytes whether or not `data = patchedData`
runs. The header is given `file.Name` and `file.Method`; `writer.CreateHeader`
then settles the method written (`createHeaderMethod`). -/
def patchServerEntry (p : ClientPatcher) (file : ZipFile) (totalCount : Nat) :
    Option (Except PatchResult (ZipEntry × Nat)) :=
  if file.openFails then some (.error (failure "Failed to read JAR entry")) else
  match file.payload with
  | none => some (.error (failure "Failed to read entry data"))
  | some data =>
    let patched : Option (List Byte × Nat) :=
      if shouldPatch file.Name && bytesContains data (stringToUTF8 OriginalDomain) then
        match findAndReplaceDomainUTF8 p data with
        | none => none
        | some (patchedData, count) =>
          if count > 0 then some (patchedData, totalCount + count)
          else some (patchedData, totalCount)
      else some (data, totalCount)
    match patched with
    | none => none
    | some (data, totalCount) =>
      if file.headerFails then some (.error (failure "Failed to create header")) else
      if file.createFails then some (.error (failure "Failed to create entry")) else
      if file.writeFails then some (.error (failure "Failed to write entry")) else
      some (.ok ({ Name := file.Name, Method := createHeaderMethod file.Name file.Method,
                   payload := data }, totalCount))

/-- The entry loop of `PatchServer` (patcher.go:431-475) over `reader.File`,
with the entries written so far and `totalCount` as state. -/
def patchServerLoop (p : ClientPatcher) :
    List ZipFile → List ZipEntry → Nat → Option (Except PatchResult (List ZipEntry × Nat))
  | [], written, totalCount => some (.ok (written, totalCount))
  | file :: rest, written, totalCount =>
    match patchServerEntry p file totalCount with
    | none => none
    | some (.error r) => some (.error r)
    | some (.ok (entry, totalCount)) => patchServerLoop p rest (written ++ [entry]) totalCount

/-- The part of the file system the patcher works on: the bytes of every
existing file, and for every path whether reading, writing and removing it
succeed (`false`: the operation returns an I/O error and changes nothing). -/
structure FS where
  files : GoString → Option (List Byte)
  ioOk : GoString → Bool

/-- Whether `os.Stat(path)` returns no error: the file exists. -/
def statOk (fs : FS) (path : GoString) : Bool := (fs.files path).isSome

/-- Function `os.ReadFile`; `none` for an error. -/
def readFile (fs : FS) (path : GoString) : Option (List Byte) :=
  if fs.ioOk path then fs.files path else none

/-- The file system with the content of `path` set to `content` (`none`: no
such file) and every other file as before. -/
def FS.put (fs : FS) (path : GoString) (content : Option (List Byte)) : FS :=
  { files := fun q => if q = path then content else fs.files q, ioOk := fs.ioOk }

/-- Function `os.WriteFile`; `none` for an error. -/
def writeFile (fs : FS) (path : GoString) (data : List Byte) : Option FS :=
  if fs.ioOk path then some (fs.put path (some data)) else none

/-- The two functions of `encoding/json` the patcher calls on a `PatchFlag`:
`json.MarshalIndent` and `json.Unmarshal`, `none` for an error. -/
structure Json where
  marshalIndent : PatchFlag → Option (List Byte)
  unmarshal : List Byte → Option PatchFlag

/-- Method `isPatchedAlready` (patcher.go:147). -/
def isPatchedAlready (json : Json) (p : ClientPatcher) (fs : FS) (binaryPath : GoString) :
    Bool :=
  let flagFile := binaryPath ++ p.patchedFlag
  match readFile fs flagFile with
  | none => false
  | some data =>
    match json.unmarshal data with
    | none => false
    | some flag => decide (flag.TargetDomain = p.targetDomain)

/-- Method `markAsPatched` (patcher.go:163); `now` is
`time.Now().Format(time.RFC3339)`, `none` an error. -/
def markAsPatched (json : Json) (now : GoString) (p : ClientPatcher) (fs : FS)
    (binaryPath : GoString) : Option FS :=
  let flag : PatchFlag :=
    { PatchedAt := now, OriginalDomain := OriginalDomain, TargetDomain := p.targetDomain,
      PatcherVersion := ascii "1.0.0" }
  match json.marshalIndent flag with
  | none => none
  | some data => writeFile fs (binaryPath ++ p.patchedFlag) data

/-- Method `backupBinary` (patcher.go:180): the backup path and the new file
system, `none` for an error. -/
def backupBinary (fs : FS) (binaryPath : GoString) : Option (GoString × FS) :=
  let backupPath := binaryPath ++ ascii ".original"
  if statOk fs backupPath then some (backupPath, fs)
  else
    match readFile fs binaryPath with
    | none => none
    | some src =>
      match writeFile fs backupPath src with
      | none => none
      | some fs1 => some (backupPath, fs1)

/-- Method `PatchClient` (patcher.go:315): the result, the new file system and
the calls made to `progressCallback`, in order. -/
def PatchClient (json : Json) (now : GoString) (p : ClientPatcher) (fs : FS)
    (clientPath : GoString) : Option (PatchResult × FS × List (GoString × Nat)) :=
  if !statOk fs clientPath then
    some (failure "Client binary not found", fs, [])
  else if isPatchedAlready json p fs clientPath then
    some ({ Success := true, AlreadyPatched := true, PatchCount := 0, Error := [] }, fs,
      [(ascii "Client already patched", 100)])
  else
    let calls := [(ascii "Preparing to patch client...", 10)]
    match backupBinary fs clientPath with
    | none => some (failure "Failed to create backup", fs, calls)
    | some (_, fs) =>
      let calls := calls ++ [(ascii "Reading client binary...", 20)]
      match readFile fs clientPath with
      | none => some (failure "Failed to read client", fs, calls)
      | some data =>
        let calls := calls ++ [(ascii "Patching domain references...", 50)]
        match findAndReplaceDomainSmart p data with
        | none => none
        | some (patchedData, count) =>
          if count = 0 then
            some ({ Success := true, AlreadyPatched := false, PatchCount := 0, Error := [] },
              fs, calls)
          else
            let calls := calls ++ [(ascii "Writing patched binary...", 80)]
            match writeFile fs clientPath patchedData with
            | none => some (failure "Failed to write patched client", fs, calls)
            | some fs =>
              let fs :=
                match markAsPatched json now p fs clientPath with
                | none => fs
                | some fs1 => fs1
              let calls := calls ++ [(ascii "Patching complete", 100)]
              some ({ Success := true, AlreadyPatched := false, PatchCount := count,
                      Error := [] }, fs, calls)

/-- Whether `sep` occurs in `s` at position `i`. -/
def occursAt (sep s : List Byte) (i : Nat) : Bool := sep.isPrefixOf (s.drop i)

/-- The number of positions below `n` at which `sep` occurs in `s`. -/
def countBelow (sep s : List Byte) (n : Nat) : Nat :=
  ((List.range n).filter (fun i => occursAt sep s i)).length

/-- The number of positions of `s` at which `sep` occurs. -/
def countOccurrences (sep s : List Byte) : Nat := countBelow sep s s.length

/-- Position `k` lies inside an occurrence of `sep` in `s`. -/
def covered (sep s : List Byte) (k : Nat) : Prop :=
  ∃ i, occursAt sep s i = true ∧ i ≤ k ∧ k < i + sep.length

/-- Loop invariant of `findAndReplaceDomainUTF8`, relating the state
`(data, pos, count)` to the buffer `b` the loop started from. -/
structure Utf8Inv (O N b data : List Byte) (pos count : Nat) : Prop where
  len : data.length = b.length
  rest : data.drop pos = b.drop pos
  cnt : count = countBelow O b pos
  align : ∀ i, i < pos → occursAt O b i = true → i + O.length ≤ pos
  written : ∀ i, occursAt O b i = true → i < pos →
    ∀ d, d < O.length → data[i + d]? = N[d]?
  frame : ∀ k, k < pos → ¬ covered O b k → data[k]? = b[k]?

/-- Loop invariant of `findAndReplaceDomainSmart`, relating the state
`(data, pos, count)` to the buffer `b` the loop started from. `P` is the
partial search pattern, `c` the byte expected after it, `W` the bytes written
over a match; positions from `hi` on have not been written yet. -/
structure SmartInv (P : List Byte) (c : Byte) (W b data : List Byte) (pos hi count : Nat) :
    Prop where
  len : data.length = b.length
  pos_le : pos ≤ hi
  rest : data.drop hi = b.drop hi
  clean : ∀ j, pos ≤ j → j < hi → occursAt P data j = false
  cleanb : ∀ j, pos ≤ j → j < hi → occursAt (P ++ [c]) b j = false
  cnt : count = countBelow (P ++ [c]) b pos
  written : ∀ i, occursAt (P ++ [c]) b i = true → i < pos →
    ∀ d, d < (P ++ [c]).length → data[i + d]? = W[d]?
  frame : ∀ k, ¬ covered (P ++ [c]) b k → data[k]? = b[k]?

/-- The 19 bytes that `findAndReplaceDomainSmart` takes for an occurrence: the
wide encoding of `"hytale.co"` followed by the byte `'m'`. -/
def smartPattern : List Byte := stringToUTF16LE (ascii "hytale.co") ++ ascii "m"

/-- The 19 bytes that `findAndReplaceDomainSmart` writes over an occurrence: the
wide encoding of the target without its last character, then the last
character's byte. -/
def smartReplacement (target : GoString) : List Byte :=
  stringToUTF16LE target.dropLast ++ target.getLast?.toList

/-- No proper non-empty suffix of the target is a beginning of `"hytale.com"`:
the bytes written over one occurrence can then never be taken for the start of
another one when the scan runs over them. -/
def rescanSafe (target : GoString) : Prop :=
  ∀ k, k < target.length → 1 ≤ k → ¬ (target.drop k <+: OriginalDomain)

instance (target : GoString) : Decidable (rescanSafe target) := by
  unfold rescanSafe
  infer_instance

/-- Reference replace-all, in the spec's words: byte `k` of the result is byte
`d` of `new` when an occurrence of `old` starts at `k - d` in `b` with
`d < len(old)`, and is byte `k` of `b` when `k` lies in no occurrence. -/
def replaceAllRef (old new b : List Byte) : List Byte :=
  (List.range b.length).map fun k =>
    match (List.range old.length).find? (fun d => decide (d ≤ k) && occursAt old b (k - d)) with
    | some d => new.getD d 0
    | none => b.getD k 0

/-- The target and `"hytale.com"` do not overlap: no non-empty suffix of the
target is a beginning of `"hytale.com"`, and no proper non-empty suffix of
`"hytale.com"` is a beginning of the target. -/
def overlapFree (target : GoString) : Prop :=
  (∀ d, d < target.length → ¬ (target.drop d <+: OriginalDomain)) ∧
    (∀ e, e < OriginalDomain.length → 1 ≤ e → ¬ (OriginalDomain.drop e <+: target))

instance (target : GoString) : Decidable (overlapFree target) := by
  unfold overlapFree
  infer_instance

/-- A near-match at position `i` of `b`: the wide encoding of `"hytale.co"`
followed by a byte other than `'m'`. -/
def nearMatch (b : List Byte) (i : Nat) : Prop :=
  occursAt (stringToUTF16LE (ascii "hytale.co")) b i = true ∧
    ∃ x, b[i + 18]? = some x ∧ x ≠ 109

/-- A buffer made of three wide occurrences of `"hytale.com"` and one
near-match, which stands after `k` of the occurrences: the wide encoding of
`"hytale.co"` and a tenth character of bytes `x`, `y`. -/
def nearMatchScenario (k : Nat) (x y : Byte) : List Byte :=
  (List.replicate k (stringToUTF16LE OriginalDomain)).flatten ++
    (stringToUTF16LE (ascii "hytale.co") ++ [x, y]) ++
    (List.replicate (3 - k) (stringToUTF16LE OriginalDomain)).flatten

/-- A sample archive: a class entry holding the domain twice, a properties
entry holding it once, and a picture whose bytes spell the domain. -/
def sampleArchive : List ZipFile :=
  [{ Name := ascii "Auth.class", Method := 8, openFails := false,
     payload := some (ascii "https://hytale.com/x.hytale.com"), headerFails := false,
     createFails := false, writeFails := false },
   { Name := ascii "server.properties", Method := 8, openFails := false,
     payload := some (ascii "auth=hytale.com"), headerFails := false,
     createFails := false, writeFails := false },
   { Name := ascii "logo.png", Method := 0, openFails := false,
     payload := some (ascii "hytale.com"), headerFails := false,
     createFails := false, writeFails := false }]

/-- The archive rebuilt from `sampleArchive` with the target `"sanasol.ws"`. -/
def sampleRebuilt : List ZipEntry :=
  [{ Name := ascii "Auth.class", Method := 8,
     payload := ascii "https://sanasol.ws/x.sanasol.ws" },
   { Name := ascii "server.properties", Method := 8, payload := ascii "auth=sanasol.ws" },
   { Name := ascii "logo.png", Method := 0, payload := ascii "hytale.com" }]

/-- A sample archive with a single directory entry that asks for Deflate. -/
def sampleDirectory : List ZipFile :=
  [{ Name := ascii "META-INF/", Method := 8, openFails := false, payload := some [],
     headerFails := false, createFails := false, writeFails := false }]

/-- A stand-in for `encoding/json` that keeps the target domain only: the
marker holds the bytes of the target domain. -/
def sampleJson : Json :=
  { marshalIndent := fun flag => some flag.TargetDomain,
    unmarshal := fun data =>
      some { PatchedAt := [], OriginalDomain := [], TargetDomain := data, PatcherVersion := [] } }

/-- A file system with the single file `path`, on which all I/O succeeds. -/
def singleFile (path : GoString) (content : List Byte) : FS :=
  { files := fun q => if q = path then some content else none, ioOk := fun _ => true }

/-- The two operations of `archive/zip` that `PatchServer` runs on whole
archives: `zip.OpenReader`, as a function of the bytes of the file (`none`
for an error), and `writer.Close` followed by `buf.Bytes()`, as a function of
the entries written (`none` when `Close` fails). -/
structure Zip where
  openReader : List Byte → Option (List ZipFile)
  close : List ZipEntry → Option (List Byte)

/-- Method `PatchServer` (patcher.go:382): the result, the new file system and
the calls made to `progressCallback`, in order. -/
def PatchServer (json : Json) (zip : Zip) (now : GoString) (p : ClientPatcher) (fs : FS)
    (serverPath : GoString) : Option (PatchResult × FS × List (GoString × Nat)) :=
  if !statOk fs serverPath then
    some (failure "Server JAR not found", fs, [])
  else if isPatchedAlready json p fs serverPath then
    some ({ Success := true, AlreadyPatched := true, PatchCount := 0, Error := [] }, fs,
      [(ascii "Server already patched", 100)])
  else
    let calls := [(ascii "Preparing to patch server...", 10)]
    match backupBinary fs serverPath with
    | none => some (failure "Failed to create backup", fs, calls)
    | some (_, fs) =>
      let calls := calls ++ [(ascii "Opening server JAR...", 20)]
      match (readFile fs serverPath).bind zip.openReader with
      | none => some (failure "Failed to open JAR", fs, calls)
      | some files =>
        let calls := calls ++ [(ascii "Patching class files...", 40)]
        match patchServerLoop p files [] 0 with
        | none => none
        | some (.error r) => some (r, fs, calls)
        | some (.ok (written, totalCount)) =>
          match zip.close written with
          | none => some (failure "Failed to close JAR", fs, calls)
          | some bytes =>
            if totalCount = 0 then
              some ({ Success := true, AlreadyPatched := false, PatchCount := 0, Error := [] },
                fs, calls)
            else
              let calls := calls ++ [(ascii "Writing patched JAR...", 80)]
              match writeFile fs serverPath bytes with
              | none => some (failure "Failed to write patched JAR", fs, calls)
              | some fs =>
                let fs :=
                  match markAsPatched json now p fs serverPath with
                  | none => fs
                  | some fs1 => fs1
                let calls := calls ++ [(ascii "Server patching complete", 100)]
                some ({ Success := true, AlreadyPatched := false, PatchCount := totalCount,
                        Error := [] }, fs, calls)

/-- What the patcher takes from the platform: `runtime.GOOS` and
`filepath.Join`. -/
structure Platform where
  goos : GoString
  join : List GoString → GoString

/-- The first candidate that `os.Stat` finds, or `""`: the loop that ends
`FindClientPath` and `FindServerPath`. -/
def firstExisting (fs : FS) : List GoString → GoString
  | [] => []
  | candidate :: rest => if statOk fs candidate then candidate else firstExisting fs rest

/-- Method `FindClientPath` (patcher.go:272). -/
def FindClientPath (pl : Platform) (fs : FS) (gameDir : GoString) : GoString :=
  let candidates :=
    if pl.goos = ascii "darwin" then
      [pl.join [gameDir, ascii "Client", ascii "Hytale.app", ascii "Contents", ascii "MacOS",
          ascii "HytaleClient"],
        pl.join [gameDir, ascii "Client", ascii "HytaleClient"]]
    else if pl.goos = ascii "windows" then
      [pl.join [gameDir, ascii "Client", ascii "HytaleClient.exe"]]
    else
      [pl.join [gameDir, ascii "Client", ascii "HytaleClient"]]
  firstExisting fs candidates

/-- Method `FindServerPath` (patcher.go:300). -/
def FindServerPath (pl : Platform) (fs : FS) (gameDir : GoString) : GoString :=
  let candidates :=
    [pl.join [gameDir, ascii "Server", ascii "HytaleServer.jar"],
      pl.join [gameDir, ascii "Server", ascii "server.jar"]]
  firstExisting fs candidates

/-- The second half of `EnsurePatched` (patcher.go:528-548), from the search
for the server archive to the end, given `result`, `totalPatches`, the file
system and the progress calls as the first half leaves them. -/
def ensurePatchedServer (pl : Platform) (json : Json) (zip : Zip) (now : GoString)
    (p : ClientPatcher) (gameDir : GoString) (result : PatchResult) (totalPatches : Nat)
    (fs : FS) (calls : List (GoString × Nat)) :
    Option (PatchResult × FS × List (GoString × Nat)) :=
  let serverPath := FindServerPath pl fs gameDir
  if serverPath ≠ [] then
    let calls := calls ++ [(ascii "Patching server JAR...", 50)]
    match PatchServer json zip now p fs serverPath with
    | none => none
    | some (serverResult, fs, inner) =>
      let calls := calls ++ inner.map fun c => (ascii "Server: " ++ c.1, 50 + c.2 / 2)
      if !serverResult.Success then
        some ({ result with PatchCount := totalPatches }, fs,
          calls ++ [(ascii "Patching complete", 100)])
      else
        some ({ result with
                AlreadyPatched := result.AlreadyPatched && serverResult.AlreadyPatched,
                PatchCount := totalPatches + serverResult.PatchCount }, fs,
          calls ++ [(ascii "Patching complete", 100)])
  else
    some ({ result with PatchCount := totalPatches }, fs,
      calls ++ [(ascii "Patching complete", 100)])

/-- Method `EnsurePatched` (patcher.go:504): the result, the new file system
and the calls made to the caller's `progressCallback`, in order. `nowClient`
and `nowServer` are the times at which the two markers are written. -/
def EnsurePatched (pl : Platform) (json : Json) (zip : Zip) (nowClient nowServer : GoString)
    (p : ClientPatcher) (fs : FS) (gameDir : GoString) :
    Option (PatchResult × FS × List (GoString × Nat)) :=
  let result : PatchResult :=
    { Success := true, AlreadyPatched := false, PatchCount := 0, Error := [] }
  let clientPath := FindClientPath pl fs gameDir
  if clientPath ≠ [] then
    let calls := [(ascii "Patching client binary...", 10)]
    match PatchClient json nowClient p fs clientPath with
    | none => none
    | some (clientResult, fs, inner) =>
      let calls := calls ++ inner.map fun c => (ascii "Client: " ++ c.1, c.2 / 2)
      if !clientResult.Success then some (clientResult, fs, calls)
      else
        ensurePatchedServer pl json zip nowServer p gameDir
          { result with AlreadyPatched := clientResult.AlreadyPatched }
          clientResult.PatchCount fs calls
  else
    ensurePatchedServer pl json zip nowServer p gameDir result 0 fs []

/-- A Unix-like platform: `filepath.Join` on clean, non-empty elements puts a
slash between them. -/
def samplePlatform : Platform :=
  { goos := ascii "linux", join := fun parts => List.intercalate (ascii "/") parts }

/-- A stand-in for `archive/zip` on which no archive can be opened. -/
def sampleZip : Zip :=
  { openReader := fun _ => none, close := fun _ => some [] }

/-- A file system with the single file `path`, on which all I/O fails. -/
def brokenFile (path : GoString) (content : List Byte) : FS :=
  { files := fun q => if q = path then some content else none, ioOk := fun _ => false }

theorem goCopy_length (dst : List Byte) (off : Nat) (src : List Byte) :
    (goCopy dst off src).length = dst.length := by
  simp only [goCopy, List.length_append, List.length_take, List.length_drop]
  omega

theorem smartLoop_length (o n : List Byte) (ol z : Byte) :
    ∀ (fuel : Nat) (data : List Byte) (pos count : Nat), data.length - pos ≤ fuel →
      ∃ out k, smartLoop o n ol z fuel data pos count = some (out, k) ∧
        out.length = data.length := by
  intro fuel
  induction fuel with
  | zero =>
    intro data pos count h
    refine ⟨data, count, ?_, rfl⟩
    have : ¬ pos < data.length := by omega
    simp [smartLoop, this]
  | succ fuel ih =>
    intro data pos count h
    rw [smartLoop]
    split
    · split
      · exact ⟨data, count, rfl, rfl⟩
      · rename_i i hi
        dsimp only
        split
        · exact ih data _ count (by omega)
        · rename_i hlt
          have hlt2 : i + pos + o.length < data.length := by omega
          rw [List.getElem?_eq_getElem hlt2]
          dsimp only
          split
          · obtain ⟨out, k, h1, h2⟩ := ih ((goCopy data (i + pos) n).set (i + pos + o.length) z)
              (i + pos + 1) (count + 1) (by simp [goCopy_length]; omega)
            exact ⟨out, k, h1, by simpa [goCopy_length] using h2⟩
          · exact ih data _ count (by omega)
    · exact ⟨data, count, rfl, rfl⟩

theorem utf8Loop_length (o n : List Byte) (ho : 0 < o.length) :
    ∀ (fuel : Nat) (data : List Byte) (pos count : Nat), data.length - pos ≤ fuel →
      ∃ out k, utf8Loop o n fuel data pos count = some (out, k) ∧
        out.length = data.length := by
  intro fuel
  induction fuel with
  | zero =>
    intro data pos count h
    refine ⟨data, count, ?_, rfl⟩
    have : ¬ pos < data.length := by omega
    simp [utf8Loop, this]
  | succ fuel ih =>
    intro data pos count h
    rw [utf8Loop]
    split
    · split
      · exact ⟨data, count, rfl, rfl⟩
      · rename_i i hi
        dsimp only
        obtain ⟨out, k, h1, h2⟩ := ih (goCopy data (i + pos) n) (i + pos + o.length) (count + 1)
          (by simp [goCopy_length]; omega)
        exact ⟨out, k, h1, by simpa [goCopy_length] using h2⟩
    · exact ⟨data, count, rfl, rfl⟩

theorem NewClientPatcher_length (t : GoString) :
    (NewClientPatcher t).targetDomain.length = 10 := by
  unfold NewClientPatcher
  dsimp only
  have h1 : DefaultAuthDomain.length = 10 := by decide
  have h2 : OriginalDomain.length = 10 := by decide
  split <;> simp_all
  split <;> simp_all


theorem occursAt_iff (sep s : List Byte) (i : Nat) :
    occursAt sep s i = true ↔ ∃ r, s.drop i = sep ++ r := by
  unfold occursAt
  rw [List.isPrefixOf_iff_prefix]
  constructor
  · rintro ⟨r, hr⟩
    exact ⟨r, hr.symm⟩
  · rintro ⟨r, hr⟩
    exact ⟨r, hr.symm⟩

theorem occursAt_getElem {sep s : List Byte} {i : Nat} (h : occursAt sep s i = true)
    {d : Nat} (hd : d < sep.length) : s[i + d]? = sep[d]? := by
  obtain ⟨r, hr⟩ := (occursAt_iff sep s i).1 h
  have h1 : (s.drop i)[d]? = s[i + d]? := by simp [List.getElem?_drop]
  rw [← h1, hr, List.getElem?_append_left hd]

theorem occursAt_length {sep s : List Byte} {i : Nat} (h : occursAt sep s i = true)
    (hne : 0 < sep.length) : i + sep.length ≤ s.length := by
  obtain ⟨r, hr⟩ := (occursAt_iff sep s i).1 h
  have := congrArg List.length hr
  simp only [List.length_drop, List.length_append] at this
  omega

theorem occursAt_of_drop_eq {sep s t : List Byte} {hi j : Nat} (h : s.drop hi = t.drop hi)
    (hj : hi ≤ j) : occursAt sep s j = occursAt sep t j := by
  unfold occursAt
  have : ∀ l : List Byte, l.drop j = (l.drop hi).drop (j - hi) := by
    intro l
    rw [List.drop_drop]
    congr 1
    omega
  rw [this s, this t, h]

theorem occursAt_snoc (sep s : List Byte) (c : Byte) (i : Nat) :
    occursAt (sep ++ [c]) s i = true ↔
      occursAt sep s i = true ∧ s[i + sep.length]? = some c := by
  constructor
  · intro h
    obtain ⟨r, hr⟩ := (occursAt_iff _ s i).1 h
    refine ⟨(occursAt_iff _ s i).2 ⟨c :: r, by simpa using hr⟩, ?_⟩
    have := occursAt_getElem h (d := sep.length) (by simp)
    simpa using this
  · rintro ⟨h1, h2⟩
    obtain ⟨r, hr⟩ := (occursAt_iff _ s i).1 h1
    have h3 : (s.drop i)[sep.length]? = s[i + sep.length]? := by simp [List.getElem?_drop]
    rw [hr, h2] at h3
    have h4 : r[0]? = some c := by
      rw [List.getElem?_append_right (Nat.le_refl _)] at h3
      simpa using h3
    cases r with
    | nil => simp at h4
    | cons x r =>
      simp at h4
      subst h4
      exact (occursAt_iff _ s i).2 ⟨r, by simpa using hr⟩

/-- A pattern whose first byte does not recur in it cannot overlap itself. -/
theorem occursAt_disjoint {h : Byte} {u s : List Byte} (hnot : h ∉ u) {i j : Nat}
    (hi : occursAt (h :: u) s i = true) (hj : occursAt (h :: u) s j = true) (hij : i < j) :
    i + (h :: u).length ≤ j := by
  by_contra hlt
  have h1 := occursAt_getElem hj (d := 0) (by simp)
  have h2 := occursAt_getElem hi (d := j - i) (by simp at hlt ⊢; omega)
  have e : i + (j - i) = j := by omega
  rw [e] at h2
  simp only [Nat.add_zero] at h1
  rw [h1] at h2
  obtain ⟨m, hm⟩ : ∃ m, j - i = m + 1 := ⟨j - i - 1, by omega⟩
  rw [hm] at h2
  simp only [List.getElem?_cons_zero, List.getElem?_cons_succ] at h2
  exact hnot (List.getElem?_mem h2.symm)

theorem bytesIndex_some {s sep : List Byte} {i : Nat} (h : bytesIndex s sep = some i) :
    occursAt sep s i = true ∧ ∀ j, j < i → occursAt sep s j = false := by
  induction s generalizing i with
  | nil =>
    simp only [bytesIndex] at h
    split at h
    · cases h
      subst_vars
      simp [occursAt]
    · cases h
  | cons x xs ih =>
    simp only [bytesIndex] at h
    split at h
    · cases h
      rename_i hp
      exact ⟨by simpa [occursAt] using hp, by intro j hj; omega⟩
    · rename_i hp
      cases hr : bytesIndex xs sep with
      | none => simp [hr] at h
      | some k =>
        simp [hr] at h
        subst h
        obtain ⟨h1, h2⟩ := ih hr
        refine ⟨by simpa [occursAt] using h1, ?_⟩
        intro j hj
        cases j with
        | zero =>
          simp only [occursAt, List.drop_zero]
          exact Bool.eq_false_iff.2 hp
        | succ j => simpa [occursAt] using h2 j (by omega)

theorem bytesIndex_none {s sep : List Byte} (h : bytesIndex s sep = none) :
    ∀ j, occursAt sep s j = false := by
  induction s with
  | nil =>
    simp only [bytesIndex] at h
    split at h
    · cases h
    · intro j
      rename_i hne
      cases sep with
      | nil => exact absurd rfl hne
      | cons a l => simp [occursAt, List.isPrefixOf]
  | cons x xs ih =>
    simp only [bytesIndex] at h
    split at h
    · cases h
    · rename_i hp
      cases hr : bytesIndex xs sep with
      | some k => simp [hr] at h
      | none =>
        intro j
        cases j with
        | zero =>
          simp only [occursAt, List.drop_zero]
          exact Bool.eq_false_iff.2 hp
        | succ j => simpa [occursAt] using ih hr j

theorem bytesIndex_drop_some {data sep : List Byte} {pos i : Nat}
    (h : bytesIndex (data.drop pos) sep = some i) :
    occursAt sep data (i + pos) = true ∧
      ∀ j, pos ≤ j → j < i + pos → occursAt sep data j = false := by
  obtain ⟨h1, h2⟩ := bytesIndex_some h
  constructor
  · simpa [occursAt, List.drop_drop, Nat.add_comm] using h1
  · intro j hj1 hj2
    have := h2 (j - pos) (by omega)
    simp only [occursAt, List.drop_drop] at this
    rw [show pos + (j - pos) = j by omega] at this
    simpa [occursAt] using this

theorem bytesIndex_drop_none {data sep : List Byte} {pos : Nat}
    (h : bytesIndex (data.drop pos) sep = none) :
    ∀ j, pos ≤ j → occursAt sep data j = false := by
  intro j hj
  have := bytesIndex_none h (j - pos)
  simp only [occursAt, List.drop_drop] at this
  rw [show pos + (j - pos) = j by omega] at this
  simpa [occursAt] using this

theorem countBelow_succ (sep s : List Byte) (n : Nat) :
    countBelow sep s (n + 1) = countBelow sep s n + (if occursAt sep s n then 1 else 0) := by
  unfold countBelow
  rw [List.range_succ, List.filter_append, List.length_append]
  by_cases h : occursAt sep s n = true <;> simp [h]

theorem countBelow_eq {sep s : List Byte} {n m : Nat} (hnm : n ≤ m)
    (h : ∀ j, n ≤ j → j < m → occursAt sep s j = false) :
    countBelow sep s m = countBelow sep s n := by
  induction m with
  | zero =>
    have : n = 0 := by omega
    subst this
    rfl
  | succ m ih =>
    by_cases hn : n = m + 1
    · subst hn
      rfl
    · rw [countBelow_succ, ih (by omega) (fun j h1 h2 => h j h1 (by omega)),
        h m (by omega) (by omega)]
      simp


theorem occursAt_false_of_ge {sep s : List Byte} (hne : 0 < sep.length) {j : Nat}
    (hj : s.length ≤ j) : occursAt sep s j = false := by
  apply Bool.eq_false_iff.2
  intro h
  have := occursAt_length h hne
  omega

theorem goCopy_eq {dst src : List Byte} {off : Nat} (h : off + src.length ≤ dst.length) :
    goCopy dst off src = dst.take off ++ src ++ dst.drop (off + src.length) := by
  unfold goCopy
  have e : src.take (dst.length - off) = src := List.take_of_length_le (by omega)
  rw [e]

theorem goCopy_getElem_lt (dst src : List Byte) {off k : Nat} (hk : k < off) :
    (goCopy dst off src)[k]? = dst[k]? := by
  unfold goCopy
  by_cases hkl : k < dst.length
  · rw [List.append_assoc, List.getElem?_append_left (by simp; omega),
      List.getElem?_take_of_lt hk]
  · have h1 := goCopy_length dst off src
    unfold goCopy at h1
    rw [List.getElem?_eq_none (by omega), List.getElem?_eq_none (by omega)]

theorem goCopy_getElem_ge {dst src : List Byte} {off k : Nat}
    (h : off + src.length ≤ dst.length) (hk : off + src.length ≤ k) :
    (goCopy dst off src)[k]? = dst[k]? := by
  rw [goCopy_eq h, List.getElem?_append_right (by simp; omega), List.getElem?_drop]
  congr 1
  simp
  omega

theorem goCopy_getElem_mid {dst src : List Byte} {off d : Nat}
    (h : off + src.length ≤ dst.length) (hd : d < src.length) :
    (goCopy dst off src)[off + d]? = src[d]? := by
  rw [goCopy_eq h, List.append_assoc, List.getElem?_append_right (by simp),
    List.getElem?_append_left (by simp; omega)]
  congr 1
  simp
  omega

theorem goCopy_drop_mid {dst src : List Byte} {off m : Nat}
    (h : off + src.length ≤ dst.length) (hm : m ≤ src.length) :
    (goCopy dst off src).drop (off + m) = src.drop m ++ dst.drop (off + src.length) := by
  rw [goCopy_eq h, List.append_assoc]
  have e : off + m = (dst.take off).length + m := by simp; omega
  rw [e, List.drop_append, List.drop_append_of_le_length hm]

theorem goCopy_drop {dst src : List Byte} {off : Nat} (h : off + src.length ≤ dst.length) :
    (goCopy dst off src).drop (off + src.length) = dst.drop (off + src.length) := by
  rw [goCopy_drop_mid h (Nat.le_refl _)]
  simp

theorem getElem?_of_drop_eq {s t : List Byte} {hi k : Nat} (h : s.drop hi = t.drop hi)
    (hk : hi ≤ k) : s[k]? = t[k]? := by
  have h1 : (s.drop hi)[k - hi]? = s[k]? := by
    rw [List.getElem?_drop]; congr 1; omega
  have h2 : (t.drop hi)[k - hi]? = t[k]? := by
    rw [List.getElem?_drop]; congr 1; omega
  rw [← h1, ← h2, h]

theorem drop_eq_of_drop_eq {s t : List Byte} {hi j : Nat} (h : s.drop hi = t.drop hi)
    (hj : hi ≤ j) : s.drop j = t.drop j := by
  have : ∀ l : List Byte, l.drop j = (l.drop hi).drop (j - hi) := by
    intro l
    rw [List.drop_drop]
    congr 1
    omega
  rw [this s, this t, h]

theorem utf8_step {h : Byte} {u N b data : List Byte} {pos count i : Nat} (hnot : h ∉ u)
    (hN : N.length = (h :: u).length) (inv : Utf8Inv (h :: u) N b data pos count)
    (hidx : bytesIndex (data.drop pos) (h :: u) = some i) :
    Utf8Inv (h :: u) N b (goCopy data (i + pos) N) (i + pos + (h :: u).length) (count + 1) := by
  obtain ⟨hocc, hfirst⟩ := bytesIndex_drop_some hidx
  have hpos : 0 < (h :: u).length := by simp
  have hfit := occursAt_length hocc hpos
  have hfitN : i + pos + N.length ≤ data.length := by omega
  have hoccb : occursAt (h :: u) b (i + pos) = true := by
    rw [← occursAt_of_drop_eq inv.rest (by omega)]; exact hocc
  have hfirstb : ∀ j, pos ≤ j → j < i + pos → occursAt (h :: u) b j = false := by
    intro j h1 h2
    rw [← occursAt_of_drop_eq inv.rest h1]; exact hfirst j h1 h2
  have hafter : ∀ j, i + pos < j → j < i + pos + (h :: u).length →
      occursAt (h :: u) b j = false := by
    intro j h1 h2
    apply Bool.eq_false_iff.2
    intro hj
    have := occursAt_disjoint hnot hoccb hj h1
    omega
  refine ⟨by rw [goCopy_length, inv.len], ?_, ?_, ?_, ?_, ?_⟩
  · rw [← hN, goCopy_drop hfitN]
    exact drop_eq_of_drop_eq inv.rest (by omega)
  · have e1 : countBelow (h :: u) b (i + pos) = countBelow (h :: u) b pos :=
      countBelow_eq (by omega) hfirstb
    have e2 : countBelow (h :: u) b (i + pos + (h :: u).length) =
        countBelow (h :: u) b (i + pos + 1) :=
      countBelow_eq (by omega) (fun j h1 h2 => hafter j (by omega) h2)
    rw [e2, countBelow_succ, e1, hoccb, inv.cnt]
    simp
  · intro j hj hoj
    by_cases h1 : j < pos
    · have := inv.align j h1 hoj
      omega
    · by_cases h2 : j < i + pos
      · rw [hfirstb j (by omega) h2] at hoj
        cases hoj
      · by_cases h3 : j = i + pos
        · omega
        · rw [hafter j (by omega) hj] at hoj
          cases hoj
  · intro j hoj hj d hd
    by_cases h1 : j < pos
    · have := inv.align j h1 hoj
      rw [goCopy_getElem_lt _ _ (by omega)]
      exact inv.written j hoj h1 d hd
    · by_cases h2 : j < i + pos
      · rw [hfirstb j (by omega) h2] at hoj
        cases hoj
      · by_cases h3 : j = i + pos
        · subst h3
          exact goCopy_getElem_mid hfitN (by omega)
        · rw [hafter j (by omega) hj] at hoj
          cases hoj
  · intro k hk hcov
    have hk2 : k < i + pos := by
      by_contra hge
      exact hcov ⟨i + pos, hoccb, by omega, hk⟩
    rw [goCopy_getElem_lt _ _ hk2]
    by_cases h1 : k < pos
    · exact inv.frame k h1 hcov
    · exact getElem?_of_drop_eq inv.rest (by omega)

theorem utf8_final {O N b data : List Byte} {pos count : Nat} (hO : 0 < O.length)
    (inv : Utf8Inv O N b data pos count)
    (hdone : ∀ j, pos ≤ j → occursAt O b j = false) :
    data.length = b.length ∧ count = countOccurrences O b ∧
      (∀ i, occursAt O b i = true → ∀ d, d < O.length → data[i + d]? = N[d]?) ∧
      (∀ k, ¬ covered O b k → data[k]? = b[k]?) := by
  refine ⟨inv.len, ?_, ?_, ?_⟩
  · rw [inv.cnt]
    unfold countOccurrences
    by_cases hle : pos ≤ b.length
    · exact (countBelow_eq hle (fun j h1 _ => hdone j h1)).symm
    · exact countBelow_eq (by omega) (fun j h1 _ => occursAt_false_of_ge hO h1)
  · intro i hi d hd
    have hlt : i < pos := by
      by_contra hge
      rw [hdone i (by omega)] at hi
      cases hi
    exact inv.written i hi hlt d hd
  · intro k hcov
    by_cases h1 : k < pos
    · exact inv.frame k h1 hcov
    · exact getElem?_of_drop_eq inv.rest (by omega)

theorem utf8Loop_spec {h : Byte} {u N b : List Byte} (hnot : h ∉ u)
    (hN : N.length = (h :: u).length) :
    ∀ (fuel : Nat) (data : List Byte) (pos count : Nat), data.length - pos ≤ fuel →
      Utf8Inv (h :: u) N b data pos count →
      ∃ out n, utf8Loop (h :: u) N fuel data pos count = some (out, n) ∧
        out.length = b.length ∧ n = countOccurrences (h :: u) b ∧
        (∀ i, occursAt (h :: u) b i = true →
          ∀ d, d < (h :: u).length → out[i + d]? = N[d]?) ∧
        (∀ k, ¬ covered (h :: u) b k → out[k]? = b[k]?) := by
  have hpos : 0 < (h :: u).length := by simp
  intro fuel
  induction fuel with
  | zero =>
    intro data pos count hf inv
    have hge : ¬ pos < data.length := by omega
    refine ⟨data, count, by simp [utf8Loop, hge], ?_⟩
    exact utf8_final hpos inv (fun j hj =>
      occursAt_false_of_ge hpos (by have := inv.len; omega))
  | succ fuel ih =>
    intro data pos count hf inv
    rw [utf8Loop]
    split
    · split
      · rename_i hnone
        refine ⟨data, count, rfl, ?_⟩
        refine utf8_final hpos inv (fun j hj => ?_)
        rw [← occursAt_of_drop_eq inv.rest hj]
        exact bytesIndex_drop_none hnone j hj
      · rename_i i hi
        dsimp only
        have hfit := occursAt_length (bytesIndex_drop_some hi).1 hpos
        exact ih _ _ _ (by rw [goCopy_length]; omega) (utf8_step hnot hN inv hi)
    · rename_i hge
      refine ⟨data, count, rfl, ?_⟩
      exact utf8_final hpos inv (fun j hj =>
        occursAt_false_of_ge hpos (by have := inv.len; omega))


theorem goCopy_set {data N : List Byte} {idx : Nat} (z : Byte)
    (h : idx + N.length < data.length) :
    (goCopy data idx N).set (idx + N.length) z = goCopy data idx (N ++ [z]) := by
  rw [goCopy_eq (by omega), goCopy_eq (by simp; omega)]
  rw [List.set_append_right _ _ (by simp)]
  have e : idx + N.length - (data.take idx ++ N).length = 0 := by simp; omega
  rw [e, List.drop_eq_getElem_cons h]
  simp [Nat.add_assoc]

theorem smart_step_skip {P W b data : List Byte} {c : Byte} {pos hi count idx : Nat}
    (inv : SmartInv P c W b data pos hi count)
    (hocc : occursAt P data idx = true) (hpi : pos ≤ idx)
    (hfirst : ∀ j, pos ≤ j → j < idx → occursAt P data j = false)
    (hno : occursAt (P ++ [c]) b idx = false) :
    SmartInv P c W b data (idx + 1) (idx + 1) count := by
  have hhi : hi ≤ idx := by
    by_contra hlt
    rw [inv.clean idx hpi (by omega)] at hocc
    cases hocc
  have hnone : ∀ j, pos ≤ j → j < idx + 1 → occursAt (P ++ [c]) b j = false := by
    intro j h1 h2
    by_cases h3 : j < hi
    · exact inv.cleanb j h1 h3
    · by_cases h4 : j = idx
      · subst h4; exact hno
      · apply Bool.eq_false_iff.2
        intro hj
        have := ((occursAt_snoc P b c j).1 hj).1
        rw [← occursAt_of_drop_eq inv.rest (by omega), hfirst j h1 (by omega)] at this
        cases this
  refine ⟨inv.len, Nat.le_refl _, drop_eq_of_drop_eq inv.rest (by omega), ?_, ?_, ?_, ?_,
    inv.frame⟩
  · intro j h1 h2; omega
  · intro j h1 h2; omega
  · rw [inv.cnt]
    exact (countBelow_eq (by omega) hnone).symm
  · intro i hi1 hi2 d hd
    have : i < pos := by
      by_contra hge
      rw [hnone i (by omega) hi2] at hi1
      cases hi1
    exact inv.written i hi1 this d hd

theorem smart_step_write {h : Byte} {u W b data : List Byte} {c : Byte}
    {pos hi count idx : Nat} (hnot : h ∉ u ++ [c]) (hW : W.length = (h :: u).length + 1)
    (hsafe : ∀ m, 1 ≤ m → m ≤ (h :: u).length → ¬ (W.drop m <+: (h :: u)))
    (inv : SmartInv (h :: u) c W b data pos hi count)
    (hocc : occursAt (h :: u) data idx = true) (hpi : pos ≤ idx)
    (hfirst : ∀ j, pos ≤ j → j < idx → occursAt (h :: u) data j = false)
    (hyes : occursAt ((h :: u) ++ [c]) b idx = true) :
    SmartInv (h :: u) c W b (goCopy data idx W) (idx + 1) (idx + W.length) (count + 1) := by
  have hhi : hi ≤ idx := by
    by_contra hlt
    rw [inv.clean idx hpi (by omega)] at hocc
    cases hocc
  have hfit : idx + W.length ≤ data.length := by
    have := occursAt_length hyes (by simp)
    rw [inv.len, hW]
    simpa [Nat.add_assoc] using this
  have hnone : ∀ j, pos ≤ j → j < idx → occursAt ((h :: u) ++ [c]) b j = false := by
    intro j h1 h2
    by_cases h3 : j < hi
    · exact inv.cleanb j h1 h3
    · apply Bool.eq_false_iff.2
      intro hj
      have := ((occursAt_snoc (h :: u) b c j).1 hj).1
      rw [← occursAt_of_drop_eq inv.rest (by omega), hfirst j h1 h2] at this
      cases this
  have hdisj : ∀ j, occursAt ((h :: u) ++ [c]) b j = true → j < idx →
      j + W.length ≤ idx := by
    intro j hj hlt
    have := occursAt_disjoint (h := h) (u := u ++ [c]) hnot (by simpa using hj)
      (by simpa using hyes) hlt
    rw [hW]
    simpa [Nat.add_assoc] using this
  have hafter : ∀ j, idx < j → j < idx + W.length →
      occursAt ((h :: u) ++ [c]) b j = false := by
    intro j h1 h2
    apply Bool.eq_false_iff.2
    intro hj
    have := occursAt_disjoint (h := h) (u := u ++ [c]) hnot (by simpa using hyes)
      (by simpa using hj) h1
    rw [hW] at h2
    simp at this
    simp at h2
    omega
  refine ⟨by rw [goCopy_length, inv.len], by omega, ?_, ?_, ?_, ?_, ?_, ?_⟩
  · rw [goCopy_drop hfit]
    exact drop_eq_of_drop_eq inv.rest (by omega)
  · intro j h1 h2
    apply Bool.eq_false_iff.2
    intro hj
    obtain ⟨r, hr⟩ := (occursAt_iff _ _ _).1 hj
    have hm : j = idx + (j - idx) := by omega
    rw [hm, goCopy_drop_mid hfit (by omega)] at hr
    have hp1 : W.drop (j - idx) <+: (h :: u) ++ r := ⟨_, hr⟩
    have hp2 : (h :: u) <+: (h :: u) ++ r := List.prefix_append _ _
    have hp3 : W.drop (j - idx) <+: (h :: u) :=
      List.prefix_of_prefix_length_le hp1 hp2 (by
        rw [List.length_drop, hW]; omega)
    exact hsafe (j - idx) (by omega) (by rw [hW] at h2; omega) hp3
  · intro j h1 h2
    exact hafter j (by omega) h2
  · have e1 : countBelow ((h :: u) ++ [c]) b idx = countBelow ((h :: u) ++ [c]) b pos :=
      countBelow_eq hpi hnone
    rw [countBelow_succ, e1, hyes, inv.cnt]
    simp
  · intro i hi1 hi2 d hd
    by_cases h1 : i < idx
    · have hlt : i < pos := by
        by_contra hge
        rw [hnone i (by omega) h1] at hi1
        cases hi1
      have := hdisj i hi1 h1
      rw [hW] at this
      simp at this hd
      rw [goCopy_getElem_lt _ _ (by omega)]
      exact inv.written i hi1 hlt d (by simpa using hd)
    · have : i = idx := by omega
      subst this
      exact goCopy_getElem_mid hfit (by rw [hW]; simpa using hd)
  · intro k hcov
    by_cases h1 : k < idx
    · rw [goCopy_getElem_lt _ _ h1]
      exact inv.frame k hcov
    · by_cases h2 : k < idx + W.length
      · exact absurd ⟨idx, hyes, by omega, by rw [hW] at h2; simpa using h2⟩ hcov
      · rw [goCopy_getElem_ge hfit (by omega)]
        exact inv.frame k hcov

theorem smart_final {P W b data : List Byte} {c : Byte} {pos hi count : Nat}
    (inv : SmartInv P c W b data pos hi count)
    (hdone : ∀ j, pos ≤ j → occursAt P data j = false) :
    data.length = b.length ∧ count = countOccurrences (P ++ [c]) b ∧
      (∀ i, occursAt (P ++ [c]) b i = true →
        ∀ d, d < (P ++ [c]).length → data[i + d]? = W[d]?) ∧
      (∀ k, ¬ covered (P ++ [c]) b k → data[k]? = b[k]?) := by
  have hnone : ∀ j, pos ≤ j → occursAt (P ++ [c]) b j = false := by
    intro j h1
    by_cases h3 : j < hi
    · exact inv.cleanb j h1 h3
    · apply Bool.eq_false_iff.2
      intro hj
      have := ((occursAt_snoc P b c j).1 hj).1
      rw [← occursAt_of_drop_eq inv.rest (by omega), hdone j h1] at this
      cases this
  refine ⟨inv.len, ?_, ?_, inv.frame⟩
  · rw [inv.cnt]
    unfold countOccurrences
    by_cases hle : pos ≤ b.length
    · exact (countBelow_eq hle (fun j h1 _ => hnone j h1)).symm
    · exact countBelow_eq (by omega)
        (fun j h1 _ => occursAt_false_of_ge (by simp) h1)
  · intro i hi1 d hd
    have hlt : i < pos := by
      by_contra hge
      rw [hnone i (by omega)] at hi1
      cases hi1
    exact inv.written i hi1 hlt d hd

theorem smartLoop_spec {h : Byte} {u N b : List Byte} {c z : Byte} (hnot : h ∉ u ++ [c])
    (hN : N.length = (h :: u).length)
    (hsafe : ∀ m, 1 ≤ m → m ≤ (h :: u).length → ¬ ((N ++ [z]).drop m <+: (h :: u))) :
    ∀ (fuel : Nat) (data : List Byte) (pos hi count : Nat), data.length - pos ≤ fuel →
      SmartInv (h :: u) c (N ++ [z]) b data pos hi count →
      ∃ out n, smartLoop (h :: u) N c z fuel data pos count = some (out, n) ∧
        out.length = b.length ∧ n = countOccurrences ((h :: u) ++ [c]) b ∧
        (∀ i, occursAt ((h :: u) ++ [c]) b i = true →
          ∀ d, d < ((h :: u) ++ [c]).length → out[i + d]? = (N ++ [z])[d]?) ∧
        (∀ k, ¬ covered ((h :: u) ++ [c]) b k → out[k]? = b[k]?) := by
  have hpos : 0 < (h :: u).length := by simp
  have hW : (N ++ [z]).length = (h :: u).length + 1 := by simp [hN]
  intro fuel
  induction fuel with
  | zero =>
    intro data pos hi count hf inv
    have hge : ¬ pos < data.length := by omega
    refine ⟨data, count, by simp [smartLoop, hge], ?_⟩
    exact smart_final inv (fun j hj => occursAt_false_of_ge hpos (by omega))
  | succ fuel ih =>
    intro data pos hi count hf inv
    rw [smartLoop]
    split
    · split
      · rename_i hnone
        refine ⟨data, count, rfl, ?_⟩
        exact smart_final inv (fun j hj => bytesIndex_drop_none hnone j hj)
      · rename_i i hi0
        dsimp only
        obtain ⟨hocc, hfirst⟩ := bytesIndex_drop_some hi0
        have hhi : hi ≤ i + pos := by
          by_contra hlt
          rw [inv.clean (i + pos) (by omega) (by omega)] at hocc
          cases hocc
        split
        · rename_i hshort
          refine ih _ _ (i + pos + 1) _ (by omega)
            (smart_step_skip inv hocc (by omega) hfirst ?_)
          apply Bool.eq_false_iff.2
          intro hj
          have := occursAt_length hj (by simp)
          have := inv.len
          simp at this
          simp at hshort
          simp at *
          omega
        · rename_i hlong
          have hlt2 : i + pos + (h :: u).length < data.length := by omega
          rw [List.getElem?_eq_getElem hlt2]
          dsimp only
          have hbyte : b[i + pos + (h :: u).length]? = some data[i + pos + (h :: u).length] := by
            rw [← getElem?_of_drop_eq inv.rest (by omega), List.getElem?_eq_getElem hlt2]
          split
          · rename_i heq
            have hset : (goCopy data (i + pos) N).set (i + pos + (h :: u).length) z =
                goCopy data (i + pos) (N ++ [z]) := by
              rw [← hN]
              exact goCopy_set z (by rw [hN]; exact hlt2)
            rw [hset]
            refine ih _ _ (i + pos + (N ++ [z]).length) _
              (by rw [goCopy_length]; omega)
              (smart_step_write hnot hW hsafe inv hocc (by omega) hfirst ?_)
            refine (occursAt_snoc _ b c _).2 ⟨?_, by rw [hbyte, heq]⟩
            rw [← occursAt_of_drop_eq inv.rest hhi]
            exact hocc
          · rename_i hneq
            refine ih _ _ (i + pos + 1) _ (by omega)
              (smart_step_skip inv hocc (by omega) hfirst ?_)
            apply Bool.eq_false_iff.2
            intro hj
            have := ((occursAt_snoc _ b c _).1 hj).2
            rw [hbyte] at this
            exact hneq (Option.some.inj this)
    · rename_i hge
      refine ⟨data, count, rfl, ?_⟩
      exact smart_final inv (fun j hj => occursAt_false_of_ge hpos (by omega))


theorem originalDomain_eq : OriginalDomain = [104, 121, 116, 97, 108, 101, 46, 99, 111, 109] := by
  decide

theorem putUint16LE_byte (c : Byte) : putUint16LE (c.val % 65536) = [c, 0] := by
  have hc := c.isLt
  unfold putUint16LE
  have h1 : (Fin.ofNat (c.val % 65536) : Fin 256) = c := by
    apply Fin.ext
    simp [Fin.ofNat]
    omega
  have h2 : (Fin.ofNat (c.val % 65536 / 256) : Fin 256) = 0 := by
    apply Fin.ext
    simp [Fin.ofNat]
    omega
  rw [h1, h2]

theorem stringToUTF16LE_cons (c : Byte) (s : GoString) :
    stringToUTF16LE (c :: s) = c :: 0 :: stringToUTF16LE s := by
  simp [stringToUTF16LE, putUint16LE_byte]

theorem stringToUTF16LE_nil : stringToUTF16LE [] = [] := rfl

theorem length_eq_ten {t : GoString} (h : t.length = 10) :
    ∃ t0 t1 t2 t3 t4 t5 t6 t7 t8 t9, t = [t0, t1, t2, t3, t4, t5, t6, t7, t8, t9] := by
  match t, h with
  | [t0, t1, t2, t3, t4, t5, t6, t7, t8, t9], _ => exact ⟨t0, t1, t2, t3, t4, t5, t6, t7, t8, t9, rfl⟩

theorem smartPattern_eq : smartPattern =
    [104, 0, 121, 0, 116, 0, 97, 0, 108, 0, 101, 0, 46, 0, 99, 0, 111, 0, 109] := by
  decide

theorem rescanSafe_bytes {t : GoString} (ht : t.length = 10) (hsafe : rescanSafe t) :
    ∀ m, 1 ≤ m → m ≤ 18 → ¬ ((smartReplacement t).drop m <+:
      [104, 0, 121, 0, 116, 0, 97, 0, 108, 0, 101, 0, 46, 0, 99, 0, 111, 0]) := by
  obtain ⟨t0, t1, t2, t3, t4, t5, t6, t7, t8, t9, rfl⟩ := length_eq_ten ht
  have h1 := hsafe 1 (by simp) (by omega)
  have h2 := hsafe 2 (by simp) (by omega)
  have h3 := hsafe 3 (by simp) (by omega)
  have h4 := hsafe 4 (by simp) (by omega)
  have h5 := hsafe 5 (by simp) (by omega)
  have h6 := hsafe 6 (by simp) (by omega)
  have h7 := hsafe 7 (by simp) (by omega)
  have h8 := hsafe 8 (by simp) (by omega)
  have h9 := hsafe 9 (by simp) (by omega)
  simp only [originalDomain_eq, List.drop_succ_cons, List.drop_zero, List.cons_prefix_cons,
    List.nil_prefix, and_true] at h1 h2 h3 h4 h5 h6 h7 h8 h9
  have hW : smartReplacement [t0, t1, t2, t3, t4, t5, t6, t7, t8, t9] =
      [t0, 0, t1, 0, t2, 0, t3, 0, t4, 0, t5, 0, t6, 0, t7, 0, t8, 0, t9] := by
    simp [smartReplacement, stringToUTF16LE_cons, stringToUTF16LE_nil]
  rw [hW]
  intro m hm1 hm2
  interval_cases m <;>
    simp only [List.drop_succ_cons, List.drop_zero, List.cons_prefix_cons, List.nil_prefix,
      and_true, eq_self_iff_true, true_and] <;>
    first
      | exact h1 | exact h2 | exact h3 | exact h4 | exact h5 | exact h6 | exact h7
      | exact h8 | exact h9
      | exact fun hc => absurd hc.1 (by decide)


theorem smart_spec (p : ClientPatcher) (hT : p.targetDomain.length = 10)
    (hsafe : rescanSafe p.targetDomain) (b : List Byte) :
    ∃ out n, findAndReplaceDomainSmart p b = some (out, n) ∧
      out.length = b.length ∧ n = countOccurrences smartPattern b ∧
      (∀ i, occursAt smartPattern b i = true →
        ∀ d, d < 19 → out[i + d]? = (smartReplacement p.targetDomain)[d]?) ∧
      (∀ k, ¬ covered smartPattern b k → out[k]? = b[k]?) := by
  have hbytes := rescanSafe_bytes hT hsafe
  obtain ⟨T, flag⟩ := p
  obtain ⟨t0, t1, t2, t3, t4, t5, t6, t7, t8, t9, rfl⟩ := length_eq_ten hT
  have hO1 : OriginalDomain.getLast? = some 109 := by decide
  have hO2 : stringToUTF16LE OriginalDomain.dropLast =
      104 :: [0, 121, 0, 116, 0, 97, 0, 108, 0, 101, 0, 46, 0, 99, 0, 111, 0] := by decide
  have hT1 : [t0, t1, t2, t3, t4, t5, t6, t7, t8, t9].getLast? = some t9 := rfl
  have hT2 : [t0, t1, t2, t3, t4, t5, t6, t7, t8, t9].dropLast =
      [t0, t1, t2, t3, t4, t5, t6, t7, t8] := rfl
  have hR : smartReplacement [t0, t1, t2, t3, t4, t5, t6, t7, t8, t9] =
      stringToUTF16LE [t0, t1, t2, t3, t4, t5, t6, t7, t8] ++ [t9] := by
    simp [smartReplacement]
  have hP : smartPattern =
      (104 :: [0, 121, 0, 116, 0, 97, 0, 108, 0, 101, 0, 46, 0, 99, 0, 111, 0]) ++ [109] := by
    decide
  simp only [findAndReplaceDomainSmart, hO1, hO2, hT1, hT2]
  rw [hR] at hbytes ⊢
  rw [hP]
  have key := smartLoop_spec (h := 104)
    (u := [0, 121, 0, 116, 0, 97, 0, 108, 0, 101, 0, 46, 0, 99, 0, 111, 0])
    (N := stringToUTF16LE [t0, t1, t2, t3, t4, t5, t6, t7, t8]) (b := b) (c := 109) (z := t9)
    (by decide) (by simp [stringToUTF16LE_cons, stringToUTF16LE_nil])
    (fun m h1 h2 => hbytes m h1 (by simpa using h2))
    b.length b 0 0 0 (by omega)
    ⟨rfl, Nat.le_refl _, rfl, fun j h1 h2 => by omega, fun j h1 h2 => by omega, rfl,
      fun i _ h2 => by omega, fun k _ => rfl⟩
  obtain ⟨out, n, h1, h2, h3, h4, h5⟩ := key
  exact ⟨out, n, h1, h2, h3, fun i hi d hd => h4 i hi d (by simpa using hd), h5⟩

theorem utf8_spec (p : ClientPatcher) (hT : p.targetDomain.length = 10) (b : List Byte) :
    ∃ out n, findAndReplaceDomainUTF8 p b = some (out, n) ∧
      out.length = b.length ∧ n = countOccurrences OriginalDomain b ∧
      (∀ i, occursAt OriginalDomain b i = true →
        ∀ d, d < 10 → out[i + d]? = p.targetDomain[d]?) ∧
      (∀ k, ¬ covered OriginalDomain b k → out[k]? = b[k]?) := by
  have hO : OriginalDomain = 104 :: [121, 116, 97, 108, 101, 46, 99, 111, 109] := by decide
  simp only [findAndReplaceDomainUTF8, stringToUTF8]
  rw [hO]
  have key := utf8Loop_spec (h := 104) (u := [121, 116, 97, 108, 101, 46, 99, 111, 109])
    (N := p.targetDomain) (b := b) (by decide) (by simpa using hT)
    b.length b 0 0 (by omega)
    ⟨rfl, rfl, rfl, fun i h1 _ => by omega, fun i _ h2 => by omega, fun k h1 _ => by omega⟩
  obtain ⟨out, n, h1, h2, h3, h4, h5⟩ := key
  exact ⟨out, n, h1, h2, h3, fun i hi d hd => h4 i hi d (by simpa using hd), h5⟩

theorem NewClientPatcher_of_length {t : GoString} (h : t.length = OriginalDomain.length) :
    NewClientPatcher t = { targetDomain := t, patchedFlag := ascii ".patched_custom" } := by
  have h2 : OriginalDomain.length = 10 := by decide
  have hne : t ≠ [] := by
    intro he
    rw [he, h2] at h
    cases h
  simp [NewClientPatcher, hne, h]


theorem occursAt_nearMatchScenario (k : Nat) (x y : Byte) (hk : k ≤ 3) (hx : x ≠ 109) (i : Nat) :
    occursAt smartPattern (nearMatchScenario k x y) i =
      decide (i % 20 = 0 ∧ i < 80 ∧ i ≠ 20 * k) := by
  have hx2 : ¬ (109 = x) := fun h => hx h.symm
  have hlen : (nearMatchScenario k x y).length = 80 := by
    interval_cases k <;> rfl
  by_cases hi : i < 80
  · interval_cases k
    · have hb : nearMatchScenario 0 x y =
          [104, 0, 121, 0, 116, 0, 97, 0, 108, 0, 101, 0, 46, 0, 99, 0, 111, 0, x, y,
        104, 0, 121, 0, 116, 0, 97, 0, 108, 0, 101, 0, 46, 0, 99, 0, 111, 0, 109, 0,
        104, 0, 121, 0, 116, 0, 97, 0, 108, 0, 101, 0, 46, 0, 99, 0, 111, 0, 109, 0,
        104, 0, 121, 0, 116, 0, 97, 0, 108, 0, 101, 0, 46, 0, 99, 0, 111, 0, 109, 0] := by
        rfl
      rw [hb, smartPattern_eq]
      interval_cases i <;> simp [occursAt, List.isPrefixOf, hx2]
    · have hb : nearMatchScenario 1 x y =
          [104, 0, 121, 0, 116, 0, 97, 0, 108, 0, 101, 0, 46, 0, 99, 0, 111, 0, 109, 0,
        104, 0, 121, 0, 116, 0, 97, 0, 108, 0, 101, 0, 46, 0, 99, 0, 111, 0, x, y,
        104, 0, 121, 0, 116, 0, 97, 0, 108, 0, 101, 0, 46, 0, 99, 0, 111, 0, 109, 0,
        104, 0, 121, 0, 116, 0, 97, 0, 108, 0, 101, 0, 46, 0, 99, 0, 111, 0, 109, 0] := by
        rfl
      rw [hb, smartPattern_eq]
      interval_cases i <;> simp [occursAt, List.isPrefixOf, hx2]
    · have hb : nearMatchScenario 2 x y =
          [104, 0, 121, 0, 116, 0, 97, 0, 108, 0, 101, 0, 46, 0, 99, 0, 111, 0, 109, 0,
        104, 0, 121, 0, 116, 0, 97, 0, 108, 0, 101, 0, 46, 0, 99, 0, 111, 0, 109, 0,
        104, 0, 121, 0, 116, 0, 97, 0, 108, 0, 101, 0, 46, 0, 99, 0, 111, 0, x, y,
        104, 0, 121, 0, 116, 0, 97, 0, 108, 0, 101, 0, 46, 0, 99, 0, 111, 0, 109, 0] := by
        rfl
      rw [hb, smartPattern_eq]
      interval_cases i <;> simp [occursAt, List.isPrefixOf, hx2]
    · have hb : nearMatchScenario 3 x y =
          [104, 0, 121, 0, 116, 0, 97, 0, 108, 0, 101, 0, 46, 0, 99, 0, 111, 0, 109, 0,
        104, 0, 121, 0, 116, 0, 97, 0, 108, 0, 101, 0, 46, 0, 99, 0, 111, 0, 109, 0,
        104, 0, 121, 0, 116, 0, 97, 0, 108, 0, 101, 0, 46, 0, 99, 0, 111, 0, 109, 0,
        104, 0, 121, 0, 116, 0, 97, 0, 108, 0, 101, 0, 46, 0, 99, 0, 111, 0, x, y] := by
        rfl
      rw [hb, smartPattern_eq]
      interval_cases i <;> simp [occursAt, List.isPrefixOf, hx2]
  · rw [occursAt_false_of_ge (by decide) (by omega)]
    simp
    omega

theorem isPrefix_of_getElem {l m : List Byte} (h : ∀ e, e < l.length → l[e]? = m[e]?) :
    l <+: m := by
  rw [List.prefix_iff_eq_take]
  apply List.ext_getElem?
  intro e
  by_cases he : e < l.length
  · rw [List.getElem?_take_of_lt he]
    exact h e he
  · rw [List.getElem?_eq_none (by omega), List.getElem?_eq_none (by simp; omega)]

theorem occursAt_of_getElem {sep s : List Byte} {i : Nat}
    (h : ∀ e, e < sep.length → s[i + e]? = sep[e]?) : occursAt sep s i = true := by
  unfold occursAt
  rw [List.isPrefixOf_iff_prefix]
  apply isPrefix_of_getElem
  intro e he
  rw [List.getElem?_drop]
  exact (h e he).symm

/-- After every occurrence of `O` in `b` has been overwritten by `T`, no
occurrence of `O` is left when `T` and `O` do not overlap. -/
theorem no_occurrence_left {O T b out : List Byte} (hO : 0 < O.length)
    (hT : T.length = O.length)
    (hw : ∀ i, occursAt O b i = true → ∀ d, d < O.length → out[i + d]? = T[d]?)
    (hf : ∀ k, ¬ covered O b k → out[k]? = b[k]?)
    (hA : ∀ d, d < T.length → ¬ (T.drop d <+: O))
    (hB : ∀ e, e < O.length → 1 ≤ e → ¬ (O.drop e <+: T)) :
    ∀ j, occursAt O out j = false := by
  intro j
  apply Bool.eq_false_iff.2
  intro hj
  have hjg : ∀ e, e < O.length → out[j + e]? = O[e]? := fun e he => occursAt_getElem hj he
  by_cases hc : covered O b j
  · obtain ⟨i, hi, h1, h2⟩ := hc
    refine hA (j - i) (by omega) (isPrefix_of_getElem ?_)
    intro e he
    simp only [List.length_drop] at he
    rw [List.getElem?_drop, ← hw i hi (j - i + e) (by omega), ← hjg e (by omega)]
    congr 1
    omega
  · by_cases hs : ∃ e, e < O.length ∧ 1 ≤ e ∧ occursAt O b (j + e) = true
    · obtain ⟨e, he1, he2, he3⟩ := hs
      refine hB e he1 he2 (isPrefix_of_getElem ?_)
      intro d hd
      simp only [List.length_drop] at hd
      rw [List.getElem?_drop, ← hw (j + e) he3 d (by omega), ← hjg (e + d) (by omega)]
      congr 1
      omega
    · apply hc
      refine ⟨j, occursAt_of_getElem ?_, Nat.le_refl _, by omega⟩
      intro e he
      rw [← hjg e he]
      symm
      apply hf
      rintro ⟨i, hi, h1, h2⟩
      by_cases hij : i ≤ j
      · exact hc ⟨i, hi, hij, by omega⟩
      · exact hs ⟨i - j, by omega, by omega, by rw [show j + (i - j) = i by omega]; exact hi⟩

theorem countOccurrences_eq_zero {sep s : List Byte} (h : ∀ j, occursAt sep s j = false) :
    countOccurrences sep s = 0 := by
  unfold countOccurrences
  rw [countBelow_eq (Nat.zero_le _) (fun j _ _ => h j)]
  rfl

theorem bytesContains_eq_false {sep s : List Byte} (h : ∀ j, occursAt sep s j = false) :
    bytesContains s sep = false := by
  unfold bytesContains
  cases hi : bytesIndex s sep with
  | none => rfl
  | some i =>
    have := (bytesIndex_some hi).1
    rw [h i] at this
    cases this

theorem patchServerEntry_ok {p : ClientPatcher} {file : ZipFile} {c c1 : Nat} {e : ZipEntry}
    (h : patchServerEntry p file c = some (.ok (e, c1))) :
    e.Name = file.Name ∧ e.Method = createHeaderMethod file.Name file.Method ∧
      (∃ data, file.payload = some data ∧
        (shouldPatch file.Name = false → e.payload = data) ∧
        (shouldPatch file.Name = true →
          bytesContains data (stringToUTF8 OriginalDomain) = true →
          ∃ n, findAndReplaceDomainUTF8 p data = some (e.payload, n))) := by
  unfold patchServerEntry at h
  split at h
  · cases h
  · split at h
    · cases h
    · rename_i data hdata
      dsimp only at h
      split at h
      · cases h
      · rename_i d2 c2 hpatched
        split at h
        · cases h
        · split at h
          · cases h
          · split at h
            · cases h
            · simp only [Option.some.injEq, Except.ok.injEq, Prod.mk.injEq] at h
              obtain ⟨he, _⟩ := h
              subst he
              refine ⟨rfl, rfl, data, hdata, ?_, ?_⟩
              · intro hs
                simp only [hs, Bool.false_and] at hpatched
                simp at hpatched
                exact hpatched.1.symm
              · intro hs hcont
                simp only [hs, hcont, Bool.and_self, if_true] at hpatched
                split at hpatched
                · cases hpatched
                · rename_i pd cnt hfr
                  refine ⟨cnt, ?_⟩
                  split at hpatched <;>
                    · simp only [Option.some.injEq, Prod.mk.injEq] at hpatched
                      rw [hfr, ← hpatched.1]

theorem patchServerLoop_ok {p : ClientPatcher} :
    ∀ (files : List ZipFile) (acc : List ZipEntry) (c : Nat) (out : List ZipEntry) (total : Nat),
      patchServerLoop p files acc c = some (.ok (out, total)) →
      out.length = acc.length + files.length ∧ (∀ i, i < acc.length → out[i]? = acc[i]?) ∧
        ∀ i (hi : i < files.length), ∃ e c0 c1, out[acc.length + i]? = some e ∧
          patchServerEntry p files[i] c0 = some (.ok (e, c1)) := by
  intro files
  induction files with
  | nil =>
    intro acc c out total h
    simp only [patchServerLoop, Option.some.injEq, Except.ok.injEq, Prod.mk.injEq] at h
    obtain ⟨rfl, _⟩ := h
    exact ⟨rfl, fun _ _ => rfl, fun i hi => absurd hi (by simp)⟩
  | cons f rest ih =>
    intro acc c out total h
    rw [patchServerLoop] at h
    split at h
    · cases h
    · cases h
    · rename_i e c1 hentry
      obtain ⟨h1, h2, h3⟩ := ih _ _ _ _ h
      simp only [List.length_append, List.length_cons, List.length_nil] at h1 h2 h3
      refine ⟨by simp only [List.length_cons]; omega, ?_, ?_⟩
      · intro i hi
        rw [h2 i (by omega), List.getElem?_append_left hi]
      · intro i hi
        cases i with
        | zero =>
          refine ⟨e, c, c1, ?_, hentry⟩
          rw [Nat.add_zero, h2 _ (by omega), List.getElem?_append_right (Nat.le_refl _)]
          simp
        | succ i =>
          obtain ⟨e2, c0, c2, h4, h5⟩ := h3 i (by simpa using hi)
          refine ⟨e2, c0, c2, ?_, by simpa using h5⟩
          rw [← h4]
          congr 1
          omega

theorem findAndReplaceDomainUTF8_returns (p : ClientPatcher) (data : List Byte) :
    ∃ out n, findAndReplaceDomainUTF8 p data = some (out, n) := by
  obtain ⟨out, n, h, _⟩ :=
    utf8Loop_length (stringToUTF8 OriginalDomain) (stringToUTF8 p.targetDomain) (by decide)
      data.length data 0 0 (by omega)
  exact ⟨out, n, h⟩

theorem patchServerEntry_returns (p : ClientPatcher) (file : ZipFile) (c : Nat)
    (h1 : file.openFails = false) (h2 : file.payload ≠ none) (h3 : file.headerFails = false)
    (h4 : file.createFails = false) (h5 : file.writeFails = false) :
    ∃ e c1, patchServerEntry p file c = some (.ok (e, c1)) := by
  obtain ⟨data, hdata⟩ := Option.ne_none_iff_exists'.1 h2
  obtain ⟨out, n, hfr⟩ := findAndReplaceDomainUTF8_returns p data
  unfold patchServerEntry
  simp only [h1, h3, h4, h5, hdata, hfr]
  by_cases hc : (shouldPatch file.Name && bytesContains data (stringToUTF8 OriginalDomain)) = true
  · by_cases hn : n > 0 <;> simp [hc, hn]
  · simp [hc]

theorem patchServerLoop_returns (p : ClientPatcher) :
    ∀ (files : List ZipFile),
      (∀ f, f ∈ files → f.openFails = false ∧ f.payload ≠ none ∧ f.headerFails = false ∧
        f.createFails = false ∧ f.writeFails = false) →
      ∀ (acc : List ZipEntry) (c : Nat),
        ∃ out total, patchServerLoop p files acc c = some (.ok (out, total)) := by
  intro files
  induction files with
  | nil =>
    intro _ acc c
    exact ⟨acc, c, rfl⟩
  | cons f rest ih =>
    intro hio acc c
    obtain ⟨h1, h2, h3, h4, h5⟩ := hio f (List.mem_cons_self _ _)
    obtain ⟨e, c1, he⟩ := patchServerEntry_returns p f c h1 h2 h3 h4 h5
    rw [patchServerLoop, he]
    exact ih (fun g hg => hio g (List.mem_cons_of_mem _ hg)) _ _

theorem findAndReplaceDomainSmart_returns (t : GoString) (b : List Byte) :
    ∃ out n, findAndReplaceDomainSmart (NewClientPatcher t) b = some (out, n) ∧
      out.length = b.length := by
  have hlen := NewClientPatcher_length t
  obtain ⟨t0, t1, t2, t3, t4, t5, t6, t7, t8, t9, hT⟩ := length_eq_ten hlen
  have hO1 : OriginalDomain.getLast? = some 109 := by decide
  simp only [findAndReplaceDomainSmart, hO1, hT]
  exact smartLoop_length _ _ _ _ b.length b 0 0 (by omega)

theorem NewClientPatcher_patchedFlag (t : GoString) :
    (NewClientPatcher t).patchedFlag = ascii ".patched_custom" := rfl

theorem backup_ne_self (path : GoString) : path ++ ascii ".original" ≠ path := by
  intro h
  have := congrArg List.length h
  simp [ascii] at this

theorem marker_ne_self (path : GoString) : path ++ ascii ".patched_custom" ≠ path := by
  intro h
  have := congrArg List.length h
  simp [ascii] at this

theorem backup_ne_marker (path : GoString) :
    path ++ ascii ".original" ≠ path ++ ascii ".patched_custom" := by
  intro h
  have := List.append_cancel_left h
  revert this
  decide

theorem FS.put_files (fs : FS) (path q : GoString) (v : Option (List Byte)) :
    (fs.put path v).files q = if q = path then v else fs.files q := rfl

theorem FS.put_ioOk (fs : FS) (path : GoString) (v : Option (List Byte)) :
    (fs.put path v).ioOk = fs.ioOk := rfl

theorem backupBinary_existing {fs : FS} {path : GoString}
    (h : statOk fs (path ++ ascii ".original") = true) :
    backupBinary fs path = some (path ++ ascii ".original", fs) := by
  simp [backupBinary, h]

theorem backupBinary_fresh {fs : FS} {path : GoString} {src : List Byte}
    (hio : ∀ q, fs.ioOk q = true) (h : statOk fs (path ++ ascii ".original") = false)
    (hsrc : fs.files path = some src) :
    backupBinary fs path =
      some (path ++ ascii ".original", fs.put (path ++ ascii ".original") (some src)) := by
  simp [backupBinary, h, readFile, hio, hsrc, writeFile]

theorem PatchClient_already {json : Json} (now : GoString) {p : ClientPatcher} {fs : FS}
    {path : GoString} (hex : statOk fs path = true)
    (hp : isPatchedAlready json p fs path = true) :
    ∃ c, PatchClient json now p fs path =
      some ({ Success := true, AlreadyPatched := true, PatchCount := 0, Error := [] }, fs, c) := by
  simp [PatchClient, hex, hp]

theorem PatchClient_none_found {json : Json} (now : GoString) {p : ClientPatcher} {fs fsb : FS}
    {path bp : GoString} {data patched : List Byte} (hex : statOk fs path = true)
    (hp : isPatchedAlready json p fs path = false)
    (hb : backupBinary fs path = some (bp, fsb)) (hr : readFile fsb path = some data)
    (hs : findAndReplaceDomainSmart p data = some (patched, 0)) :
    ∃ c, PatchClient json now p fs path =
      some ({ Success := true, AlreadyPatched := false, PatchCount := 0, Error := [] },
        fsb, c) := by
  simp [PatchClient, hex, hp, hb, hr, hs]

theorem PatchClient_patched {json : Json} (now : GoString) {p : ClientPatcher} {fs fsb fsc : FS}
    {path bp : GoString} {data patched : List Byte} {count : Nat} (hex : statOk fs path = true)
    (hp : isPatchedAlready json p fs path = false)
    (hb : backupBinary fs path = some (bp, fsb)) (hr : readFile fsb path = some data)
    (hs : findAndReplaceDomainSmart p data = some (patched, count)) (hc : count ≠ 0)
    (hw : writeFile fsb path patched = some fsc) :
    ∃ c, PatchClient json now p fs path =
      some ({ Success := true, AlreadyPatched := false, PatchCount := count, Error := [] },
        (match markAsPatched json now p fsc path with
          | none => fsc
          | some fs1 => fs1), c) := by
  simp [PatchClient, hex, hp, hb, hr, hs, hc, hw]

/-- C1: for every target string `t` and every buffer `b`, both
`findAndReplaceDomainSmart` and `findAndReplaceDomainUTF8` of
`NewClientPatcher(t)` return, and the buffer they return is as long as `b`. -/
theorem findAndReplace_length (t : GoString) (b : List Byte) :
    (∃ out n, findAndReplaceDomainSmart (NewClientPatcher t) b = some (out, n) ∧
        out.length = b.length) ∧
      (∃ out n, findAndReplaceDomainUTF8 (NewClientPatcher t) b = some (out, n) ∧
        out.length = b.length) := by
  exact ⟨findAndReplaceDomainSmart_returns t b,
    utf8Loop_length _ _ (by decide) b.length b 0 0 (by omega)⟩

/-- C2, as stated, fails: with the default target, the buffer holding the wide
encoding of `"hytale.co"` followed by the bytes `6D 01` (the character U+016D)
holds the 20-byte wide encoding of `"hytale.com"` at no position, and
`findAndReplaceDomainSmart` counts one occurrence in it. -/
theorem wide_count_mismatch :
    (ascii "sanasol.ws").length = OriginalDomain.length ∧
      findAndReplaceDomainSmart (NewClientPatcher (ascii "sanasol.ws"))
          (stringToUTF16LE (ascii "hytale.co") ++ [109, 1]) =
        some (stringToUTF16LE (ascii "sanasol.w") ++ [115, 1], 1) ∧
      countOccurrences (stringToUTF16LE OriginalDomain)
          (stringToUTF16LE (ascii "hytale.co") ++ [109, 1]) = 0 := by
  decide

/-- C2, amended: for every target domain of the same length as `"hytale.com"`
no proper non-empty suffix of which is a beginning of `"hytale.com"`, and every
buffer `b`, `findAndReplaceDomainSmart` returns as count the number of
positions of `b` at which the 19 bytes made of the wide encoding of
`"hytale.co"` and the byte `'m'` occur. -/
theorem smart_count (t : GoString) (b : List Byte) (ht : t.length = OriginalDomain.length)
    (hsafe : rescanSafe t) :
    ∃ out, findAndReplaceDomainSmart (NewClientPatcher t) b =
      some (out, countOccurrences smartPattern b) := by
  have h10 : OriginalDomain.length = 10 := by decide
  rw [NewClientPatcher_of_length ht]
  obtain ⟨out, n, h1, _, h3, _⟩ :=
    smart_spec { targetDomain := t, patchedFlag := ascii ".patched_custom" }
      (by rw [← h10]; exact ht) hsafe b
  exact ⟨out, by rw [h1, h3]⟩

/-- C2, amended, at the default target and a buffer with two occurrences and
one near-match. -/
theorem smart_count_witness :
    ∃ out, findAndReplaceDomainSmart (NewClientPatcher (ascii "sanasol.ws"))
        (stringToUTF16LE (ascii "hytale.com") ++ stringToUTF16LE (ascii "hytale.cop") ++
          stringToUTF16LE (ascii "hytale.com")) =
      some (out, countOccurrences smartPattern
        (stringToUTF16LE (ascii "hytale.com") ++ stringToUTF16LE (ascii "hytale.cop") ++
          stringToUTF16LE (ascii "hytale.com"))) :=
  smart_count (ascii "sanasol.ws") _ (by decide) (by decide)

/-- C3 at a failing input: with the target `"ahytale.co"` and the buffer made of
the wide encoding of `"hytale.com"` followed by the byte `'m'`, the only
matched range of the input is the one at position 0 (bytes 0 to 18), and
`findAndReplaceDomainSmart` counts two occurrences and returns a buffer whose
byte 20, outside that range, is `'o'` where the input has `'m'`. -/
theorem smart_rewrites_outside_match :
    (ascii "ahytale.co").length = OriginalDomain.length ∧
      findAndReplaceDomainSmart (NewClientPatcher (ascii "ahytale.co"))
          (stringToUTF16LE (ascii "hytale.com") ++ ascii "m") =
        some (stringToUTF16LE (ascii "aahytale.c") ++ ascii "o", 2) ∧
      (∀ i, i < 21 →
        occursAt smartPattern (stringToUTF16LE (ascii "hytale.com") ++ ascii "m") i = true →
          i = 0) ∧
      (stringToUTF16LE (ascii "hytale.com") ++ ascii "m")[20]? = some 109 ∧
      (stringToUTF16LE (ascii "aahytale.c") ++ ascii "o")[20]? = some 111 := by
  decide

/-- C4, as stated, fails: in the buffer made of the wide encoding of
`"hytale.co"` followed by the wide encoding of `"hytale.com"`, position 0 is a
near-match (the byte after its 18 bytes is `'h'`, not `'m'`), and with the
target `"sanasol.ws"` that byte is `'s'` in the output: an occurrence of its
own starts there and is replaced. -/
theorem near_match_next_byte_changes :
    nearMatch (stringToUTF16LE (ascii "hytale.co") ++ stringToUTF16LE (ascii "hytale.com")) 0 ∧
      findAndReplaceDomainSmart (NewClientPatcher (ascii "sanasol.ws"))
          (stringToUTF16LE (ascii "hytale.co") ++ stringToUTF16LE (ascii "hytale.com")) =
        some (stringToUTF16LE (ascii "hytale.co") ++ stringToUTF16LE (ascii "sanasol.ws"), 1) ∧
      (stringToUTF16LE (ascii "hytale.co") ++ stringToUTF16LE (ascii "hytale.com"))[18]? =
        some 104 ∧
      (stringToUTF16LE (ascii "hytale.co") ++ stringToUTF16LE (ascii "sanasol.ws"))[18]? =
        some 115 :=
  ⟨⟨by decide, 104, by decide, by decide⟩, by decide, by decide, by decide⟩

/-- C4, amended: with the target `"sanasol.ws"`, for every buffer `b`,
`findAndReplaceDomainSmart` returns the number of positions holding the wide
encoding of `"hytale.co"` followed by `'m'`; a near-match position (the same 18
bytes followed by another byte) is not one of them and its 18 bytes are the
same in the output, and so is the byte after them unless an occurrence of its
own starts there. In particular a buffer made of 3 wide occurrences and 1
near-match, wherever it stands among them, yields count 3 and an output that
agrees with the input on the 20 bytes of the near-match. -/
theorem near_match_untouched :
    (∀ b : List Byte, ∃ out n,
      findAndReplaceDomainSmart (NewClientPatcher (ascii "sanasol.ws")) b = some (out, n) ∧
        n = countOccurrences smartPattern b ∧
        ∀ i, nearMatch b i →
          occursAt smartPattern b i = false ∧ (∀ d, d < 18 → out[i + d]? = b[i + d]?) ∧
            (occursAt smartPattern b (i + 18) = false → out[i + 18]? = b[i + 18]?)) ∧
      (∀ (k : Nat) (x y : Byte), k ≤ 3 → x ≠ 109 → ∃ out,
        findAndReplaceDomainSmart (NewClientPatcher (ascii "sanasol.ws"))
            (nearMatchScenario k x y) = some (out, 3) ∧
          ∀ d, d < 20 → out[20 * k + d]? = (nearMatchScenario k x y)[20 * k + d]?) := by
  have hnew : NewClientPatcher (ascii "sanasol.ws") =
      { targetDomain := ascii "sanasol.ws", patchedFlag := ascii ".patched_custom" } :=
    NewClientPatcher_of_length (by decide)
  have hP : smartPattern =
      (104 :: [0, 121, 0, 116, 0, 97, 0, 108, 0, 101, 0, 46, 0, 99, 0, 111, 0]) ++ [109] := by
    decide
  have hQ : stringToUTF16LE (ascii "hytale.co") =
      104 :: [0, 121, 0, 116, 0, 97, 0, 108, 0, 101, 0, 46, 0, 99, 0, 111, 0] := by decide
  have hnot : (104 : Byte) ∉ [0, 121, 0, 116, 0, 97, 0, 108, 0, 101, 0, 46, 0, 99, 0, 111, 0] := by
    decide
  constructor
  · intro b
    obtain ⟨out, n, h1, _, h3, _, h5⟩ := smart_spec
      { targetDomain := ascii "sanasol.ws", patchedFlag := ascii ".patched_custom" }
      (by decide) (by decide) b
    rw [hnew]
    refine ⟨out, n, h1, h3, ?_⟩
    rintro i ⟨hi, x, hx1, hx2⟩
    rw [hQ] at hi
    have hno : occursAt smartPattern b i = false := by
      apply Bool.eq_false_iff.2
      intro hc
      rw [hP] at hc
      have := ((occursAt_snoc _ b 109 i).1 hc).2
      simp only [List.length_cons, List.length_nil] at this
      rw [hx1] at this
      exact hx2 (Option.some.inj this)
    have hcov : ∀ d, d ≤ 18 → (d = 18 → occursAt smartPattern b (i + 18) = false) →
        ¬ covered smartPattern b (i + d) := ?_
    · exact ⟨hno, fun d hd => h5 (i + d) (hcov d (by omega) (by omega)),
        fun h18 => h5 (i + 18) (hcov 18 (by omega) (fun _ => h18))⟩
    intro d hd hd18
    rintro ⟨j, hj, hj1, hj2⟩
    have hjc := hj
    have hlen : smartPattern.length = 19 := by decide
    rw [hlen] at hj2
    rw [hP] at hj
    obtain ⟨hj3, hj4⟩ := (occursAt_snoc _ b 109 j).1 hj
    simp only [List.length_cons, List.length_nil] at hj4
    rcases Nat.lt_trichotomy j i with hlt | heq | hgt
    · have := occursAt_disjoint hnot hj3 hi hlt
      simp only [List.length_cons, List.length_nil] at this
      have hij : i = j + 18 := by omega
      have h0 := occursAt_getElem hi (d := 0) (by simp)
      rw [Nat.add_zero, hij, hj4] at h0
      simp at h0
    · subst heq
      rw [hP, hj] at hno
      cases hno
    · have := occursAt_disjoint hnot hi hj3 hgt
      simp only [List.length_cons, List.length_nil] at this
      have hd2 : d = 18 := by omega
      have hj5 : j = i + 18 := by omega
      rw [hj5, hd18 hd2] at hjc
      cases hjc
  · intro k x y hk hx
    obtain ⟨out, n, h1, _, h3, _, h5⟩ := smart_spec
      { targetDomain := ascii "sanasol.ws", patchedFlag := ascii ".patched_custom" }
      (by decide) (by decide) (nearMatchScenario k x y)
    have hocc := occursAt_nearMatchScenario k x y hk hx
    have hlen : (nearMatchScenario k x y).length = 80 := by
      interval_cases k <;> rfl
    have hn : n = 3 := by
      rw [h3]
      unfold countOccurrences countBelow
      rw [hlen, show (fun i => occursAt smartPattern (nearMatchScenario k x y) i) =
        fun i => decide (i % 20 = 0 ∧ i < 80 ∧ i ≠ 20 * k) from funext hocc]
      interval_cases k <;> decide
    rw [hnew]
    refine ⟨out, by rw [h1, hn], fun d hd => h5 _ ?_⟩
    rintro ⟨j, hj, hj1, hj2⟩
    have hlen : smartPattern.length = 19 := by decide
    rw [hlen] at hj2
    rw [hocc j] at hj
    simp only [decide_eq_true_eq] at hj
    omega

/-- C4, amended, at the buffer with the near-match `"hytale.cop"` after the first of the
three occurrences. -/
theorem near_match_untouched_witness :
    ∃ out, findAndReplaceDomainSmart (NewClientPatcher (ascii "sanasol.ws"))
        (nearMatchScenario 1 112 0) = some (out, 3) ∧
      ∀ d, d < 20 → out[20 * 1 + d]? = (nearMatchScenario 1 112 0)[20 * 1 + d]? :=
  near_match_untouched.2 1 112 0 (by decide) (by decide)

/-- C5: for every target domain of the same length as `"hytale.com"` and every
buffer `b`, `findAndReplaceDomainUTF8` returns the number of positions of `b`
at which `"hytale.com"` occurs, and a buffer of the same length that holds
the target's bytes over each of those 10-byte ranges and the bytes of `b`
everywhere else; it is the result of the reference replace-all. -/
theorem utf8_replaces_all (t : GoString) (b : List Byte)
    (ht : t.length = OriginalDomain.length) :
    ∃ out n, findAndReplaceDomainUTF8 (NewClientPatcher t) b = some (out, n) ∧
      n = countOccurrences (stringToUTF8 OriginalDomain) b ∧
      out.length = b.length ∧
      (∀ i, occursAt (stringToUTF8 OriginalDomain) b i = true →
        ∀ d, d < t.length → out[i + d]? = t[d]?) ∧
      (∀ k, ¬ covered (stringToUTF8 OriginalDomain) b k → out[k]? = b[k]?) ∧
      out = replaceAllRef (stringToUTF8 OriginalDomain) (stringToUTF8 t) b := by
  have h10 : OriginalDomain.length = 10 := by decide
  have ht10 : t.length = 10 := by rw [← h10]; exact ht
  rw [NewClientPatcher_of_length ht]
  obtain ⟨out, n, h1, h2, h3, h4, h5⟩ :=
    utf8_spec { targetDomain := t, patchedFlag := ascii ".patched_custom" } ht10 b
  simp only [stringToUTF8]
  refine ⟨out, n, h1, h3, h2, fun i hi d hd => h4 i hi d (by omega), h5, ?_⟩
  apply List.ext_getElem?
  intro k
  by_cases hk : k < b.length
  · have hmap : (replaceAllRef OriginalDomain t b)[k]? = some
        (match (List.range OriginalDomain.length).find?
            (fun d => decide (d ≤ k) && occursAt OriginalDomain b (k - d)) with
          | some d => t.getD d 0
          | none => b.getD k 0) := by
      simp [replaceAllRef, List.getElem?_map, List.getElem?_range hk]
    rw [hmap]
    cases hf : (List.range OriginalDomain.length).find?
        (fun d => decide (d ≤ k) && occursAt OriginalDomain b (k - d)) with
    | none =>
      have hnc : ¬ covered OriginalDomain b k := by
        rintro ⟨i, hi1, hi2, hi3⟩
        have := List.find?_eq_none.1 hf (k - i) (by simp; omega)
        rw [show k - (k - i) = i by omega] at this
        simp [hi1] at this
      rw [h5 k hnc]
      simp [List.getD_eq_getElem?_getD, List.getElem?_eq_getElem hk]
    | some d =>
      have hd1 := List.find?_some hf
      have hd2 : d < 10 := by
        have := List.mem_of_find?_eq_some hf
        rw [h10] at this
        simpa using this
      simp only [Bool.and_eq_true, decide_eq_true_eq] at hd1
      have := h4 (k - d) hd1.2 d hd2
      rw [show k - d + d = k by omega] at this
      rw [this]
      simp [List.getD_eq_getElem?_getD, List.getElem?_eq_getElem (show d < t.length by omega)]
  · rw [List.getElem?_eq_none (by omega), List.getElem?_eq_none (by simp [replaceAllRef]; omega)]

/-- C5 at the target `"sanasol.ws"` and a buffer holding `"hytale.com"` twice. -/
theorem utf8_replaces_all_witness :
    ∃ out n, findAndReplaceDomainUTF8 (NewClientPatcher (ascii "sanasol.ws"))
        (ascii "https://hytale.com/x.hytale.com") = some (out, n) ∧
      n = countOccurrences (stringToUTF8 OriginalDomain) (ascii "https://hytale.com/x.hytale.com") ∧
      out.length = (ascii "https://hytale.com/x.hytale.com").length ∧
      (∀ i, occursAt (stringToUTF8 OriginalDomain) (ascii "https://hytale.com/x.hytale.com") i
          = true →
        ∀ d, d < (ascii "sanasol.ws").length → out[i + d]? = (ascii "sanasol.ws")[d]?) ∧
      (∀ k, ¬ covered (stringToUTF8 OriginalDomain) (ascii "https://hytale.com/x.hytale.com") k →
        out[k]? = (ascii "https://hytale.com/x.hytale.com")[k]?) ∧
      out = replaceAllRef (stringToUTF8 OriginalDomain) (stringToUTF8 (ascii "sanasol.ws"))
        (ascii "https://hytale.com/x.hytale.com") :=
  utf8_replaces_all (ascii "sanasol.ws") (ascii "https://hytale.com/x.hytale.com") (by decide)

/-- C6, as stated, fails: `"a.b.hytale"` has the length of `"hytale.com"`, and
for the entry `config.json` with payload `"hytale.com.com"` the entry loop of
`PatchServer` emits the payload `"a.b.hytale.com"`, in which `"hytale.com"`
occurs. -/
theorem patched_entry_contains_original :
    (NewClientPatcher (ascii "a.b.hytale")).targetDomain = ascii "a.b.hytale" ∧
      shouldPatch (ascii "config.json") = true ∧
      bytesContains (ascii "hytale.com.com") (stringToUTF8 OriginalDomain) = true ∧
      patchServerLoop (NewClientPatcher (ascii "a.b.hytale"))
          [{ Name := ascii "config.json", Method := 8, openFails := false,
             payload := some (ascii "hytale.com.com"), headerFails := false,
             createFails := false, writeFails := false }] [] 0 =
        some (.ok ([{ Name := ascii "config.json", Method := 8,
                      payload := ascii "a.b.hytale.com" }], 1)) ∧
      countOccurrences (stringToUTF8 OriginalDomain) (ascii "a.b.hytale.com") = 1 ∧
      bytesContains (ascii "a.b.hytale.com") (stringToUTF8 OriginalDomain) = true :=
  ⟨by decide, by decide, by decide, rfl, by decide, by decide⟩

/-- C6, amended: for every target domain of the same length as `"hytale.com"`
that does not overlap it (no non-empty suffix of the target is a beginning of
`"hytale.com"`, no proper non-empty suffix of `"hytale.com"` is a beginning of
the target), and every archive whose entries are read and written without
error, the entry loop of `PatchServer` completes, and for every allow-listed
entry whose payload contains `"hytale.com"` the payload it emits contains zero
occurrences of `"hytale.com"`. -/
theorem patched_entry_clean (t : GoString) (files : List ZipFile)
    (ht : t.length = OriginalDomain.length) (hfree : overlapFree t)
    (hio : ∀ f, f ∈ files → f.openFails = false ∧ f.payload ≠ none ∧ f.headerFails = false ∧
      f.createFails = false ∧ f.writeFails = false) :
    ∃ out total, patchServerLoop (NewClientPatcher t) files [] 0 = some (.ok (out, total)) ∧
      ∀ (i : Nat) (hi : i < files.length) (data : List Byte),
        shouldPatch files[i].Name = true → files[i].payload = some data →
        bytesContains data (stringToUTF8 OriginalDomain) = true →
        ∃ e, out[i]? = some e ∧
          countOccurrences (stringToUTF8 OriginalDomain) e.payload = 0 ∧
          bytesContains e.payload (stringToUTF8 OriginalDomain) = false := by
  have h10 : OriginalDomain.length = 10 := by decide
  obtain ⟨out, total, hloop⟩ := patchServerLoop_returns (NewClientPatcher t) files hio [] 0
  refine ⟨out, total, hloop, ?_⟩
  intro i hi data hname hdata hcont
  obtain ⟨_, _, h3⟩ := patchServerLoop_ok files [] 0 out total hloop
  obtain ⟨e, c0, c1, he1, he2⟩ := h3 i hi
  obtain ⟨_, _, d2, hd2, _, hpatch⟩ := patchServerEntry_ok he2
  rw [hdata] at hd2
  cases hd2
  obtain ⟨n, hn⟩ := hpatch hname hcont
  rw [NewClientPatcher_of_length ht] at hn
  obtain ⟨out2, n2, g1, _, _, g4, g5⟩ :=
    utf8_spec { targetDomain := t, patchedFlag := ascii ".patched_custom" }
      (by rw [← h10]; exact ht) data
  rw [hn] at g1
  simp only [Option.some.injEq, Prod.mk.injEq] at g1
  obtain ⟨rfl, _⟩ := g1
  have hclean := no_occurrence_left (O := OriginalDomain) (T := t) (by decide) ht
    (fun j hj d hd => g4 j hj d (by omega)) g5 hfree.1 hfree.2
  refine ⟨e, by simpa using he1, ?_, ?_⟩
  · exact countOccurrences_eq_zero hclean
  · exact bytesContains_eq_false hclean

/-- C6, amended, at the default target and the sample archive. -/
theorem patched_entry_clean_witness :
    ∃ out total, patchServerLoop (NewClientPatcher (ascii "sanasol.ws")) sampleArchive [] 0 =
        some (.ok (out, total)) ∧
      ∀ (i : Nat) (hi : i < sampleArchive.length) (data : List Byte),
        shouldPatch sampleArchive[i].Name = true → sampleArchive[i].payload = some data →
        bytesContains data (stringToUTF8 OriginalDomain) = true →
        ∃ e, out[i]? = some e ∧
          countOccurrences (stringToUTF8 OriginalDomain) e.payload = 0 ∧
          bytesContains e.payload (stringToUTF8 OriginalDomain) = false :=
  patched_entry_clean (ascii "sanasol.ws") sampleArchive (by decide) (by decide) (by decide)

/-- C7, as stated, fails: the directory entry `META-INF/` that asks for
Deflate (method 8) is rebuilt with method Store (0), the loop completing
without error. -/
theorem directory_entry_method_changes :
    patchServerLoop (NewClientPatcher (ascii "sanasol.ws")) sampleDirectory [] 0 =
        some (.ok ([{ Name := ascii "META-INF/", Method := 0, payload := [] }], 0)) ∧
      sampleDirectory.map ZipFile.Method = [8] ∧
      ([{ Name := ascii "META-INF/", Method := 0, payload := [] }] : List ZipEntry).map
        ZipEntry.Method ≠ sampleDirectory.map ZipFile.Method :=
  ⟨rfl, by decide, by decide⟩

/-- C7, amended: for every source archive on which the entry loop of
`PatchServer` completes without error, the rebuilt archive has as many
entries, with the same names in the same order; every entry has the
compression method of the source entry, except that an entry whose name ends
in `/` has the method Store; and every entry whose name ends in none of
`.class`, `.properties`, `.json`, `.xml`, `.yml` has the payload of the source
entry. -/
theorem patchServer_keeps_entries (p : ClientPatcher) (files : List ZipFile)
    (out : List ZipEntry) (total : Nat)
    (h : patchServerLoop p files [] 0 = some (.ok (out, total))) :
    out.length = files.length ∧
      out.map ZipEntry.Name = files.map ZipFile.Name ∧
      out.map ZipEntry.Method =
        files.map (fun f => if hasSuffix f.Name (ascii "/") then Store else f.Method) ∧
      ∀ (i : Nat) (hi : i < files.length),
        (hasSuffix files[i].Name (ascii ".class") = false ∧
          hasSuffix files[i].Name (ascii ".properties") = false ∧
          hasSuffix files[i].Name (ascii ".json") = false ∧
          hasSuffix files[i].Name (ascii ".xml") = false ∧
          hasSuffix files[i].Name (ascii ".yml") = false) →
        out[i]?.map ZipEntry.payload = files[i].payload := by
  obtain ⟨h1, _, h3⟩ := patchServerLoop_ok files [] 0 out total h
  simp only [List.length_nil, Nat.zero_add] at h1 h3
  have hpoint : ∀ (i : Nat) (hi : i < files.length), ∃ e, out[i]? = some e ∧
      e.Name = files[i].Name ∧
      e.Method = (if hasSuffix files[i].Name (ascii "/") then Store else files[i].Method) ∧
      (shouldPatch files[i].Name = false → some e.payload = files[i].payload) := by
    intro i hi
    obtain ⟨e, c0, c1, he1, he2⟩ := h3 i hi
    obtain ⟨g1, g2, data, g3, g4, _⟩ := patchServerEntry_ok he2
    exact ⟨e, he1, g1, g2, fun hs => by rw [g3, g4 hs]⟩
  refine ⟨h1, ?_, ?_, ?_⟩
  · apply List.ext_getElem?
    intro i
    by_cases hi : i < files.length
    · obtain ⟨e, he, g1, _⟩ := hpoint i hi
      simp [List.getElem?_map, he, g1, List.getElem?_eq_getElem hi]
    · rw [List.getElem?_eq_none (by simp; omega), List.getElem?_eq_none (by simp; omega)]
  · apply List.ext_getElem?
    intro i
    by_cases hi : i < files.length
    · obtain ⟨e, he, _, g2, _⟩ := hpoint i hi
      simp [List.getElem?_map, he, g2, List.getElem?_eq_getElem hi]
    · rw [List.getElem?_eq_none (by simp; omega), List.getElem?_eq_none (by simp; omega)]
  · intro i hi hs
    obtain ⟨e, he, _, _, g3⟩ := hpoint i hi
    rw [he]
    exact g3 (by simp [shouldPatch, hs])

/-- C7, amended, at the sample archive, rebuilt with the target `"sanasol.ws"`. -/
theorem patchServer_keeps_entries_witness :
    sampleRebuilt.length = sampleArchive.length ∧
      sampleRebuilt.map ZipEntry.Name = sampleArchive.map ZipFile.Name ∧
      sampleRebuilt.map ZipEntry.Method =
        sampleArchive.map (fun f => if hasSuffix f.Name (ascii "/") then Store else f.Method) ∧
      ∀ (i : Nat) (hi : i < sampleArchive.length),
        (hasSuffix sampleArchive[i].Name (ascii ".class") = false ∧
          hasSuffix sampleArchive[i].Name (ascii ".properties") = false ∧
          hasSuffix sampleArchive[i].Name (ascii ".json") = false ∧
          hasSuffix sampleArchive[i].Name (ascii ".xml") = false ∧
          hasSuffix sampleArchive[i].Name (ascii ".yml") = false) →
        sampleRebuilt[i]?.map ZipEntry.payload = sampleArchive[i].payload :=
  patchServer_keeps_entries (NewClientPatcher (ascii "sanasol.ws")) sampleArchive
    sampleRebuilt 3 rfl

/-- C8: for every string `t`, the target domain held by `NewClientPatcher(t)`
is as long as `"hytale.com"`; it is the default `"sanasol.ws"` whenever the
length of `t` differs (as for `"abc"` and for the empty string), and `t`
itself whenever the lengths are equal. -/
theorem NewClientPatcher_target (t : GoString) :
    (NewClientPatcher t).targetDomain.length = OriginalDomain.length ∧
      (t.length ≠ OriginalDomain.length →
        (NewClientPatcher t).targetDomain = DefaultAuthDomain) ∧
      (t.length = OriginalDomain.length → (NewClientPatcher t).targetDomain = t) ∧
      DefaultAuthDomain = ascii "sanasol.ws" ∧
      (NewClientPatcher (ascii "abc")).targetDomain = ascii "sanasol.ws" ∧
      (NewClientPatcher []).targetDomain = ascii "sanasol.ws" := by
  have h10 : OriginalDomain.length = 10 := by decide
  have hd : DefaultAuthDomain.length = 10 := by decide
  refine ⟨by rw [NewClientPatcher_length, h10], ?_, ?_, rfl, by decide, by decide⟩
  · intro hne
    unfold NewClientPatcher
    by_cases he : t = []
    · simp [he, hd, h10]
    · simp [he, hne]
  · intro heq
    rw [NewClientPatcher_of_length heq]

/-- C8 at the targets `"abc"` (too short: the default is substituted) and
`"example.io"` (ten characters: kept). -/
theorem NewClientPatcher_target_witness :
    (NewClientPatcher (ascii "abc")).targetDomain = DefaultAuthDomain ∧
      (NewClientPatcher (ascii "example.io")).targetDomain = ascii "example.io" :=
  ⟨(NewClientPatcher_target (ascii "abc")).2.1 (by decide),
    (NewClientPatcher_target (ascii "example.io")).2.2.1 (by decide)⟩

/-- C9, as stated, fails: on a client binary without any occurrence of the
domain (here the bytes `"no domain"`, with no marker beside it) the first
`PatchClient` writes no marker, and the second one returns
`AlreadyPatched = false`. -/
theorem second_patch_not_already_patched :
    statOk (singleFile (ascii "HytaleClient") (ascii "no domain")) (ascii "HytaleClient") = true ∧
      ((PatchClient sampleJson (ascii "t1") (NewClientPatcher (ascii "sanasol.ws"))
          (singleFile (ascii "HytaleClient") (ascii "no domain")) (ascii "HytaleClient")).bind
        fun r1 =>
          (PatchClient sampleJson (ascii "t2") (NewClientPatcher (ascii "sanasol.ws")) r1.2.1
            (ascii "HytaleClient")).map fun r2 => (r1.1, r2.1)) =
        some ({ Success := true, AlreadyPatched := false, PatchCount := 0, Error := [] },
          { Success := true, AlreadyPatched := false, PatchCount := 0, Error := [] }) := by
  decide

/-- C9, amended: for every file-system state in which the artifact exists and
every read and write succeeds, and a JSON codec that encodes the flag written
by `markAsPatched` and decodes it to a flag with the same target domain, two successive
`PatchClient` calls with the same patcher both return; the second returns
`Success = true` and `PatchCount = 0` and leaves the file system as the first
left it; it returns `AlreadyPatched = true` exactly when the first returned
`AlreadyPatched = true` or patched at least one occurrence. -/
theorem patchClient_twice (json : Json) (now1 now2 t : GoString) (fs : FS) (path : GoString)
    (hex : statOk fs path = true) (hio : ∀ q, fs.ioOk q = true)
    (hjson : ∃ data,
      json.marshalIndent
          ⟨now1, OriginalDomain, (NewClientPatcher t).targetDomain, ascii "1.0.0"⟩ = some data ∧
        ∃ flag2, json.unmarshal data = some flag2 ∧
          flag2.TargetDomain = (NewClientPatcher t).targetDomain) :
    ∃ r1 fs1 c1 r2 c2,
      PatchClient json now1 (NewClientPatcher t) fs path = some (r1, fs1, c1) ∧
      PatchClient json now2 (NewClientPatcher t) fs1 path = some (r2, fs1, c2) ∧
      r2.Success = true ∧ r2.PatchCount = 0 ∧
      (r2.AlreadyPatched = true ↔ (r1.AlreadyPatched = true ∨ 0 < r1.PatchCount)) := by
  obtain ⟨src, hsrc⟩ := Option.isSome_iff_exists.1 hex
  obtain ⟨patched, count, hsmart, _⟩ := findAndReplaceDomainSmart_returns t src
  have n1 := backup_ne_self path
  have n2 := marker_ne_self path
  have n3 := backup_ne_marker path
  have hflag := NewClientPatcher_patchedFlag t
  by_cases hA : isPatchedAlready json (NewClientPatcher t) fs path = true
  · obtain ⟨c1, h1⟩ := PatchClient_already now1 hex hA
    obtain ⟨c2, h2⟩ := PatchClient_already now2 hex hA
    exact ⟨_, _, _, _, _, h1, h2, rfl, rfl, by simp⟩
  · have hB : isPatchedAlready json (NewClientPatcher t) fs path = false := by simpa using hA
    -- the file system after the backup step
    obtain ⟨fsb, hbk, hbio, hbsrc, hbex, hbmark⟩ : ∃ fsb,
        backupBinary fs path = some (path ++ ascii ".original", fsb) ∧
        (∀ q, fsb.ioOk q = true) ∧ fsb.files path = some src ∧
        statOk fsb (path ++ ascii ".original") = true ∧
        fsb.files (path ++ ascii ".patched_custom") =
          fs.files (path ++ ascii ".patched_custom") := by
      by_cases hbk : statOk fs (path ++ ascii ".original") = true
      · exact ⟨fs, backupBinary_existing hbk, hio, hsrc, hbk, rfl⟩
      · have hbk2 : statOk fs (path ++ ascii ".original") = false := by simpa using hbk
        refine ⟨_, backupBinary_fresh hio hbk2 hsrc, ?_, ?_, ?_, ?_⟩
        · intro q
          simp [FS.put_ioOk, hio]
        · simp [FS.put_files, n1.symm, hsrc]
        · simp [statOk, FS.put_files]
        · simp [FS.put_files, n3.symm]
    have hbread : readFile fsb path = some src := by simp [readFile, hbio, hbsrc]
    have hbexp : statOk fsb path = true := by simp [statOk, hbsrc]
    have hbB : isPatchedAlready json (NewClientPatcher t) fsb path = false := by
      rw [← hB]
      simp [isPatchedAlready, readFile, hbio, hio, hflag, hbmark]
    by_cases hc : count = 0
    · subst hc
      obtain ⟨c1, h1⟩ := PatchClient_none_found now1 hex hB hbk hbread hsmart
      obtain ⟨c2, h2⟩ := PatchClient_none_found now2 hbexp hbB
        (backupBinary_existing hbex) hbread hsmart
      exact ⟨_, _, _, _, _, h1, h2, rfl, rfl, by simp⟩
    · have hw : writeFile fsb path patched = some (fsb.put path (some patched)) := by
        simp [writeFile, hbio]
      obtain ⟨c1, h1⟩ := PatchClient_patched now1 hex hB hbk hbread hsmart hc hw
      obtain ⟨md, hmd, flag2, hun, htd⟩ := hjson
      have hmark : markAsPatched json now1 (NewClientPatcher t) (fsb.put path (some patched))
          path = some ((fsb.put path (some patched)).put (path ++ ascii ".patched_custom")
            (some md)) := by
        simp [markAsPatched, hmd, writeFile, FS.put_ioOk, hbio, hflag]
      rw [hmark] at h1
      dsimp only at h1
      have hex2 : statOk ((fsb.put path (some patched)).put (path ++ ascii ".patched_custom")
          (some md)) path = true := by
        simp [statOk, FS.put_files, n2.symm]
      have hA2 : isPatchedAlready json (NewClientPatcher t)
          ((fsb.put path (some patched)).put (path ++ ascii ".patched_custom") (some md))
          path = true := by
        simp [isPatchedAlready, readFile, FS.put_ioOk, hbio, hflag, FS.put_files, hun, htd]
      obtain ⟨c2, h2⟩ := PatchClient_already now2 hex2 hA2
      refine ⟨_, _, _, _, _, h1, h2, rfl, rfl, ?_⟩
      simp
      omega

/-- C9, amended, at a client binary holding one wide occurrence of the domain. -/
theorem patchClient_twice_witness :
    ∃ r1 fs1 c1 r2 c2,
      PatchClient sampleJson (ascii "t1") (NewClientPatcher (ascii "sanasol.ws"))
          (singleFile (ascii "HytaleClient") (stringToUTF16LE (ascii "hytale.com")))
          (ascii "HytaleClient") = some (r1, fs1, c1) ∧
      PatchClient sampleJson (ascii "t2") (NewClientPatcher (ascii "sanasol.ws")) fs1
          (ascii "HytaleClient") = some (r2, fs1, c2) ∧
      r2.Success = true ∧ r2.PatchCount = 0 ∧
      (r2.AlreadyPatched = true ↔ (r1.AlreadyPatched = true ∨ 0 < r1.PatchCount)) :=
  patchClient_twice sampleJson (ascii "t1") (ascii "t2") (ascii "sanasol.ws")
    (singleFile (ascii "HytaleClient") (stringToUTF16LE (ascii "hytale.com")))
    (ascii "HytaleClient") (by decide) (fun _ => rfl)
    ⟨_, rfl, _, rfl, rfl⟩

theorem PatchClient_returns (json : Json) (now t : GoString) (fs : FS) (path : GoString) :
    ∃ r, PatchClient json now (NewClientPatcher t) fs path = some r := by
  unfold PatchClient
  split
  · exact ⟨_, rfl⟩
  · split
    · exact ⟨_, rfl⟩
    · dsimp only
      split
      · exact ⟨_, rfl⟩
      · split
        · exact ⟨_, rfl⟩
        · rename_i data _
          obtain ⟨out, n, h, _⟩ := findAndReplaceDomainSmart_returns t data
          rw [h]
          dsimp only
          split
          · exact ⟨_, rfl⟩
          · split <;> exact ⟨_, rfl⟩

theorem patchServerEntry_some (p : ClientPatcher) (file : ZipFile) (c : Nat) :
    ∃ r, patchServerEntry p file c = some r := by
  unfold patchServerEntry
  split
  · exact ⟨_, rfl⟩
  · split
    · exact ⟨_, rfl⟩
    · rename_i data _
      obtain ⟨out, n, h⟩ := findAndReplaceDomainUTF8_returns p data
      rw [h]
      dsimp only
      split
      · rename_i hp
        split at hp
        · split at hp <;> cases hp
        · cases hp
      · split
        · exact ⟨_, rfl⟩
        · split
          · exact ⟨_, rfl⟩
          · split <;> exact ⟨_, rfl⟩

theorem patchServerLoop_some (p : ClientPatcher) :
    ∀ (files : List ZipFile) (acc : List ZipEntry) (c : Nat),
      ∃ r, patchServerLoop p files acc c = some r := by
  intro files
  induction files with
  | nil => intro acc c; exact ⟨_, rfl⟩
  | cons f rest ih =>
    intro acc c
    obtain ⟨r, hr⟩ := patchServerEntry_some p f c
    rw [patchServerLoop, hr]
    cases r with
    | error e => exact ⟨_, rfl⟩
    | ok v =>
      obtain ⟨e, c1⟩ := v
      exact ih _ _

theorem PatchServer_returns (json : Json) (zip : Zip) (now : GoString) (p : ClientPatcher)
    (fs : FS) (path : GoString) : ∃ r, PatchServer json zip now p fs path = some r := by
  unfold PatchServer
  split
  · exact ⟨_, rfl⟩
  · split
    · exact ⟨_, rfl⟩
    · dsimp only
      split
      · exact ⟨_, rfl⟩
      · split
        · exact ⟨_, rfl⟩
        · rename_i files _
          obtain ⟨r, hr⟩ := patchServerLoop_some p files [] 0
          rw [hr]
          cases r with
          | error e => exact ⟨_, rfl⟩
          | ok v =>
            obtain ⟨written, total⟩ := v
            dsimp only
            split
            · exact ⟨_, rfl⟩
            · split
              · exact ⟨_, rfl⟩
              · split <;> exact ⟨_, rfl⟩

theorem ensurePatchedServer_success (pl : Platform) (json : Json) (zip : Zip) (now : GoString)
    (p : ClientPatcher) (gameDir : GoString) (result : PatchResult) (total : Nat) (fs : FS)
    (calls : List (GoString × Nat)) :
    ∃ r fs2 calls2,
      ensurePatchedServer pl json zip now p gameDir result total fs calls =
        some (r, fs2, calls2) ∧ r.Success = result.Success := by
  unfold ensurePatchedServer
  dsimp only
  split
  · obtain ⟨⟨sr, fs1, inner⟩, hr⟩ :=
      PatchServer_returns json zip now p fs (FindServerPath pl fs gameDir)
    rw [hr]
    dsimp only
    split <;> exact ⟨_, _, _, rfl, rfl⟩
  · exact ⟨_, _, _, rfl, rfl⟩

theorem PatchClient_percents {json : Json} {now : GoString} {p : ClientPatcher} {fs f : FS}
    {path : GoString} {r : PatchResult} {inner : List (GoString × Nat)}
    (h : PatchClient json now p fs path = some (r, f, inner)) :
    inner.map Prod.snd ∈
      [[], [100], [10], [10, 20], [10, 20, 50], [10, 20, 50, 80], [10, 20, 50, 80, 100]] := by
  unfold PatchClient at h
  split at h
  · simp only [Option.some.injEq, Prod.mk.injEq] at h
    rw [← h.2.2]
    decide
  · split at h
    · simp only [Option.some.injEq, Prod.mk.injEq] at h
      rw [← h.2.2]
      decide
    · dsimp only at h
      split at h
      · simp only [Option.some.injEq, Prod.mk.injEq] at h
        rw [← h.2.2]
        decide
      · split at h
        · simp only [Option.some.injEq, Prod.mk.injEq] at h
          rw [← h.2.2]
          decide
        · split at h
          · cases h
          · split at h
            · simp only [Option.some.injEq, Prod.mk.injEq] at h
              rw [← h.2.2]
              decide
            · split at h <;>
                · simp only [Option.some.injEq, Prod.mk.injEq] at h
                  rw [← h.2.2]
                  decide

theorem PatchServer_percents {json : Json} {zip : Zip} {now : GoString} {p : ClientPatcher}
    {fs f : FS} {path : GoString} {r : PatchResult} {inner : List (GoString × Nat)}
    (h : PatchServer json zip now p fs path = some (r, f, inner)) :
    inner.map Prod.snd ∈
      [[], [100], [10], [10, 20], [10, 20, 40], [10, 20, 40, 80], [10, 20, 40, 80, 100]] := by
  unfold PatchServer at h
  split at h
  · simp only [Option.some.injEq, Prod.mk.injEq] at h
    rw [← h.2.2]
    decide
  · split at h
    · simp only [Option.some.injEq, Prod.mk.injEq] at h
      rw [← h.2.2]
      decide
    · dsimp only at h
      split at h
      · simp only [Option.some.injEq, Prod.mk.injEq] at h
        rw [← h.2.2]
        decide
      · split at h
        · simp only [Option.some.injEq, Prod.mk.injEq] at h
          rw [← h.2.2]
          decide
        · split at h
          · cases h
          · simp only [Option.some.injEq, Prod.mk.injEq] at h
            rw [← h.2.2]
            decide
          · split at h
            · simp only [Option.some.injEq, Prod.mk.injEq] at h
              rw [← h.2.2]
              decide
            · split at h
              · simp only [Option.some.injEq, Prod.mk.injEq] at h
                rw [← h.2.2]
                decide
              · split at h <;>
                  · simp only [Option.some.injEq, Prod.mk.injEq] at h
                    rw [← h.2.2]
                    decide

theorem map_snd_relabel (s : GoString) (g : Nat → Nat) (inner : List (GoString × Nat)) :
    (inner.map fun c => (s ++ c.1, g c.2)).map Prod.snd = (inner.map Prod.snd).map g := by
  simp [List.map_map, Function.comp_def]

theorem ensurePatchedServer_percents {pl : Platform} {json : Json} {zip : Zip}
    {now : GoString} {p : ClientPatcher} {gameDir : GoString} {result r : PatchResult}
    {total : Nat} {fs f : FS} {calls out : List (GoString × Nat)}
    (h : ensurePatchedServer pl json zip now p gameDir result total fs calls =
      some (r, f, out)) :
    ∃ sv : List Nat, out.map Prod.snd = calls.map Prod.snd ++ sv ∧
      List.Pairwise (fun a b => a ≤ b) sv ∧ ∀ a, a ∈ sv → 50 ≤ a := by
  unfold ensurePatchedServer at h
  dsimp only at h
  split at h
  · split at h
    · cases h
    · rename_i sr fs1 inner hps
      have hin := PatchServer_percents hps
      have hout : out.map Prod.snd =
          calls.map Prod.snd ++ (50 :: (inner.map Prod.snd).map (fun x => 50 + x / 2) ++ [100]) := by
        split at h <;>
          · simp only [Option.some.injEq, Prod.mk.injEq] at h
            rw [← h.2.2]
            simp only [List.map_append, List.map_cons, List.map_nil, List.append_assoc,
              map_snd_relabel (ascii "Server: ") (fun x => 50 + x / 2)]
            rfl
      refine ⟨_, hout, ?_, ?_⟩
      · simp only [List.mem_cons, List.mem_singleton, List.not_mem_nil, or_false] at hin
        rcases hin with h1 | h1 | h1 | h1 | h1 | h1 | h1 <;> rw [h1] <;> decide
      · simp only [List.mem_cons, List.mem_singleton, List.not_mem_nil, or_false] at hin
        rcases hin with h1 | h1 | h1 | h1 | h1 | h1 | h1 <;> rw [h1] <;> decide
  · simp only [Option.some.injEq, Prod.mk.injEq] at h
    refine ⟨[100], ?_, by decide, by decide⟩
    rw [← h.2.2]
    simp

/-- Apart from the first call, which reports 10 when a client is found, the
percentages that `EnsurePatched` passes to the progress callback never
decrease; when no client is found none of them decreases. -/
theorem ensurePatched_progress {pl : Platform} {json : Json} {zip : Zip}
    {nowClient nowServer : GoString} {p : ClientPatcher} {fs f : FS} {gameDir : GoString}
    {r : PatchResult} {calls : List (GoString × Nat)}
    (h : EnsurePatched pl json zip nowClient nowServer p fs gameDir = some (r, f, calls)) :
    List.Pairwise (fun a b => a ≤ b) (calls.map Prod.snd).tail ∧
      (FindClientPath pl fs gameDir = [] →
        List.Pairwise (fun a b => a ≤ b) (calls.map Prod.snd)) := by
  unfold EnsurePatched at h
  dsimp only at h
  split at h
  · rename_i hfound
    refine ⟨?_, fun he => absurd he hfound⟩
    split at h
    · cases h
    · rename_i cr fs1 inner hpc
      have hin := PatchClient_percents hpc
      simp only [List.mem_cons, List.mem_singleton, List.not_mem_nil, or_false] at hin
      have hcl : List.Pairwise (fun a b => a ≤ b) ((inner.map Prod.snd).map (fun x => x / 2)) ∧
          ∀ a, a ∈ (inner.map Prod.snd).map (fun x => x / 2) → a ≤ 50 := by
        rcases hin with h1 | h1 | h1 | h1 | h1 | h1 | h1 <;> rw [h1] <;> decide
      split at h
      · simp only [Option.some.injEq, Prod.mk.injEq] at h
        rw [← h.2.2]
        simp only [List.map_append, List.map_cons, List.map_nil, List.singleton_append,
          List.tail_cons, map_snd_relabel (ascii "Client: ") (fun x => x / 2)]
        exact hcl.1
      · obtain ⟨sv, h1, h2, h3⟩ := ensurePatchedServer_percents h
        rw [h1]
        simp only [List.map_append, List.map_cons, List.map_nil, List.singleton_append,
          List.cons_append, List.tail_cons,
          map_snd_relabel (ascii "Client: ") (fun x => x / 2)]
        rw [List.pairwise_append]
        exact ⟨hcl.1, h2, fun a ha b hb => Nat.le_trans (hcl.2 a ha) (h3 b hb)⟩
  · rename_i hnot
    obtain ⟨sv, h1, h2, h3⟩ := ensurePatchedServer_percents h
    simp only [List.map_nil, List.nil_append] at h1
    rw [h1]
    exact ⟨h2.tail, fun _ => h2⟩

/-- C11, as stated, fails: in a game directory without a client binary
`FindClientPath` returns `""` and `EnsurePatched` returns `Success = true`. -/
theorem missing_client_not_fatal :
    FindClientPath samplePlatform (singleFile (ascii "game/readme.txt") (ascii "hello"))
        (ascii "game") = [] ∧
      (EnsurePatched samplePlatform sampleJson sampleZip (ascii "t1") (ascii "t2")
          (NewClientPatcher (ascii "sanasol.ws"))
          (singleFile (ascii "game/readme.txt") (ascii "hello")) (ascii "game")).map
        (fun r => r.1.Success) = some true := by
  decide

/-- C11, amended: for every outcome of artifact discovery and of the two patch
sequences, `EnsurePatched` returns, and it returns `Success = false` exactly
when the native client artifact is found and `PatchClient` fails on it; a
client that is not found, a missing server archive and a failed `PatchServer`
leave the result successful. -/
theorem ensurePatched_success (pl : Platform) (json : Json) (zip : Zip)
    (nowClient nowServer t : GoString) (fs : FS) (gameDir : GoString) :
    ∃ r fs2 calls,
      EnsurePatched pl json zip nowClient nowServer (NewClientPatcher t) fs gameDir =
        some (r, fs2, calls) ∧
      (r.Success = false ↔
        FindClientPath pl fs gameDir ≠ [] ∧
          ∃ rc fc cc, PatchClient json nowClient (NewClientPatcher t) fs
              (FindClientPath pl fs gameDir) = some (rc, fc, cc) ∧ rc.Success = false) ∧
      (FindClientPath pl fs gameDir = [] → r.Success = true) := by
  unfold EnsurePatched
  dsimp only
  by_cases hc : FindClientPath pl fs gameDir ≠ []
  · rw [if_pos hc]
    obtain ⟨⟨rc, fc, cc⟩, hpc⟩ :=
      PatchClient_returns json nowClient t fs (FindClientPath pl fs gameDir)
    rw [hpc]
    dsimp only
    by_cases hs : rc.Success = true
    · obtain ⟨r, fs2, calls, h1, h2⟩ := ensurePatchedServer_success pl json zip nowServer
        (NewClientPatcher t) gameDir
        { Success := true, AlreadyPatched := rc.AlreadyPatched, PatchCount := 0, Error := [] }
        rc.PatchCount fc
        ([(ascii "Patching client binary...", 10)] ++
          cc.map fun c => (ascii "Client: " ++ c.1, c.2 / 2))
      simp only [hs, Bool.not_true, Bool.false_eq_true, if_false]
      refine ⟨r, fs2, calls, h1, ?_, fun he => absurd he hc⟩
      rw [h2]
      constructor
      · intro h
        cases h
      · rintro ⟨_, rc2, fc2, cc2, h3, h4⟩
        simp only [Option.some.injEq, Prod.mk.injEq] at h3
        rw [← h3.1, hs] at h4
        cases h4
    · have hs2 : rc.Success = false := by simpa using hs
      simp only [hs2, Bool.not_false, if_true]
      exact ⟨_, _, _, rfl, ⟨fun _ => ⟨hc, rc, fc, cc, rfl, hs2⟩, fun _ => hs2⟩,
        fun he => absurd he hc⟩
  · rw [if_neg hc]
    obtain ⟨r, fs2, calls, h1, h2⟩ := ensurePatchedServer_success pl json zip nowServer
      (NewClientPatcher t) gameDir
      { Success := true, AlreadyPatched := false, PatchCount := 0, Error := [] } 0 fs []
    refine ⟨r, fs2, calls, h1, ?_, fun _ => h2⟩
    rw [h2]
    constructor
    · intro h
      cases h
    · rintro ⟨h3, _⟩
      exact absurd h3 hc

/-- C11, amended, at a game directory whose client binary cannot be read: the
client is found, `PatchClient` fails on it and the result is unsuccessful. -/
theorem ensurePatched_success_witness :
    ∃ r fs2 calls,
      EnsurePatched samplePlatform sampleJson sampleZip (ascii "t1") (ascii "t2")
          (NewClientPatcher (ascii "sanasol.ws"))
          (brokenFile (ascii "game/Client/HytaleClient") (ascii "hytale.com"))
          (ascii "game") = some (r, fs2, calls) ∧
      r.Success = false :=
  let ⟨r, fs2, calls, h1, h2, _⟩ :=
    ensurePatched_success samplePlatform sampleJson sampleZip (ascii "t1") (ascii "t2")
      (ascii "sanasol.ws") (brokenFile (ascii "game/Client/HytaleClient") (ascii "hytale.com"))
      (ascii "game")
  ⟨r, fs2, calls, h1, h2.2 ⟨by decide, _, _, _, rfl, rfl⟩⟩

/-- C12 at a failing input: in a game directory that holds only a client
binary with one wide occurrence of the domain, `EnsurePatched` passes the
percentages 10, 5, 10, 25, 40, 50, 100 to the caller's progress callback, in
this order: the second is below the first. -/
theorem progress_decreases :
    (EnsurePatched samplePlatform sampleJson sampleZip (ascii "t1") (ascii "t2")
        (NewClientPatcher (ascii "sanasol.ws"))
        (singleFile (ascii "game/Client/HytaleClient") (stringToUTF16LE (ascii "hytale.com")))
        (ascii "game")).map (fun r => r.2.2.map Prod.snd) =
      some [10, 5, 10, 25, 40, 50, 100] ∧
      ¬ List.Pairwise (fun a b => a ≤ b) [10, 5, 10, 25, 40, 50, 100] := by
  decide

end HyPrism
